import Mathlib

/-!
Shallow embedding of the pixel-art vector smoothing engine of the
portfolio repository (the PixelArtEditor component): grid store,
contour tracer, corner classifier, pseudo-random rounding selector,
bridge synthesizer, path renderer and undo/redo history.

Integer cell coordinates are modelled by ℤ.  The JS code compares
coordinates with a 0.01 tolerance, which on integer-valued data is
exact equality, so the embedding uses equality on ℤ.  Probability
thresholds and screen coordinates are modelled by ℚ; the trigonometric
pseudo-random hash itself is modelled over ℝ, and the geometry pipeline
is parameterised by an arbitrary pseudo-random function so that its
properties hold for every such function, the real one included.
-/

namespace PixelSmooth

/-- Cardinal side tags carried by boundary edges (top, right, bottom, left). -/
inductive Side where
  | top
  | right
  | bottom
  | left
deriving DecidableEq, Repr

/-- Directed unit boundary edge, exactly the record pushed by findContour. -/
structure Edge where
  x1 : ℤ
  y1 : ℤ
  x2 : ℤ
  y2 : ℤ
  side : Side
deriving DecidableEq, Repr

/-- Start point of a directed edge. -/
def edgeStart (e : Edge) : ℤ × ℤ := (e.x1, e.y1)

/-- End point of a directed edge. -/
def edgeEnd (e : Edge) : ℤ × ℤ := (e.x2, e.y2)

/-- Occupancy query of the sparse grid store (the pixels set). -/
def hasPixel (px : List (ℤ × ℤ)) (x y : ℤ) : Bool := decide ((x, y) ∈ px)

/-- Boundary edges contributed by one occupied cell: one edge per side whose
neighbour is unoccupied, pushed in the order top, right, bottom, left. -/
def cellEdges (px : List (ℤ × ℤ)) (x y : ℤ) : List Edge :=
  (if hasPixel px x (y - 1) then [] else [⟨x, y, x + 1, y, Side.top⟩]) ++
  (if hasPixel px (x + 1) y then [] else [⟨x + 1, y, x + 1, y + 1, Side.right⟩]) ++
  (if hasPixel px x (y + 1) then [] else [⟨x + 1, y + 1, x, y + 1, Side.bottom⟩]) ++
  (if hasPixel px (x - 1) y then [] else [⟨x, y + 1, x, y, Side.left⟩])

/-- Edge generation pass of findContour: every occupied cell inside the grid
bounds contributes its boundary edges; out-of-bounds entries are skipped. -/
def genEdges (gw gh : ℤ) (px : List (ℤ × ℤ)) : List Edge :=
  px.flatMap fun p =>
    if gw ≤ p.1 ∨ gh ≤ p.2 ∨ p.1 < 0 ∨ p.2 < 0 then [] else cellEdges px p.1 p.2

/-- Scan for the first unused edge whose start point equals the given point,
removing it from the pool; mirrors the inner j-loop of findContour where
used indices are skipped. -/
def extractNext (pt : ℤ × ℤ) : List Edge → Option (Edge × List Edge)
  | [] => none
  | e :: rest =>
    if edgeStart e = pt then some (e, rest)
    else
      match extractNext pt rest with
      | none => none
      | some (f, rest') => some (f, e :: rest')

/-- Greedy chaining loop of findContour: repeatedly append the first unused
continuing edge until none exists or the loop closes back to the first
edge's start.  Fuel bounds the iteration count; it is always at least the
size of the remaining pool, so exhaustion coincides with an empty pool. -/
def traceFrom (first : Edge) : ℕ → ℤ × ℤ → List Edge → List Edge → List Edge × List Edge
  | 0, _, remaining, contour => (contour, remaining)
  | fuel + 1, pt, remaining, contour =>
    match extractNext pt remaining with
    | none => (contour, remaining)
    | some (e, rest) =>
      if edgeEnd e = edgeStart first then (contour ++ [e], rest)
      else traceFrom first fuel (edgeEnd e) rest (contour ++ [e])

/-- Outer loop of findContour: start a chain at the first unused edge, trace
it, keep it only when it has more than 2 edges and continue on the rest. -/
def findContourLoop : ℕ → List Edge → List (List Edge)
  | 0, _ => []
  | _, [] => []
  | fuel + 1, e :: rest =>
    let res := traceFrom e rest.length (edgeEnd e) rest [e]
    (if 2 < res.1.length then [res.1] else []) ++ findContourLoop fuel res.2

/-- Contour tracing over the current pixel set. -/
def findContour (gw gh : ℤ) (px : List (ℤ × ℤ)) : List (List Edge) :=
  let edges := genEdges gw gh px
  findContourLoop edges.length edges

/-- Number of edges of a list ending at a point. -/
def inCount (v : ℤ × ℤ) (l : List Edge) : ℕ :=
  l.countP fun e => decide (edgeEnd e = v)

/-- Number of edges of a list starting at a point. -/
def outCount (v : ℤ × ℤ) (l : List Edge) : ℕ :=
  l.countP fun e => decide (edgeStart e = v)

/-- Signed excess of incoming over outgoing edges at a point. -/
def netFlow (v : ℤ × ℤ) (l : List Edge) : ℤ :=
  (inCount v l : ℤ) - (outCount v l : ℤ)

/-- Integer indicator of a decidable proposition. -/
def chi (p : Prop) [Decidable p] : ℤ := if p then 1 else 0

/-- Whether consecutive edges of a chain meet head-to-tail. -/
def linkedChain : List Edge → Bool
  | [] => true
  | [_] => true
  | e :: f :: rest => decide (edgeEnd e = edgeStart f) && linkedChain (f :: rest)

/-- Whether the last edge's endpoint equals the first edge's start point. -/
def closedLoop : List Edge → Bool
  | [] => true
  | e :: rest => decide (edgeEnd (rest.getLastD e) = edgeStart e)

/-- Generating cell of a boundary edge, recovered from its fields. -/
def cellOf (e : Edge) : ℤ × ℤ :=
  match e.side with
  | Side.top => (e.x1, e.y1)
  | Side.right => (e.x1 - 1, e.y1)
  | Side.bottom => (e.x2, e.y1 - 1)
  | Side.left => (e.x1, e.y2)

/-- Classification of a boundary vertex. -/
inductive CornerType where
  | convex
  | concave
deriving DecidableEq, Repr

/-- Corner classifier: cross product of the two edge direction vectors,
positive means convex and anything else (zero included) means concave. -/
def getCornerType (edge1 edge2 : Edge) : CornerType :=
  let dx1 := edge1.x2 - edge1.x1
  let dy1 := edge1.y2 - edge1.y1
  let dx2 := edge2.x2 - edge2.x1
  let dy2 := edge2.y2 - edge2.y1
  if 0 < dx1 * dy2 - dy1 * dx2 then CornerType.convex else CornerType.concave

/-- Deterministic pseudo-random hash of the source, over the reals:
fract(sin(x * 12.9898 + y * 78.233 + seed * 43758.5453) * 43758.5453). -/
noncomputable def pseudoRandom (x y seed : ℝ) : ℝ :=
  let n := Real.sin (x * 12.9898 + y * 78.233 + seed * 43758.5453) * 43758.5453
  n - (⌊n⌋ : ℝ)

/-- Corner mode restricting which vertex class may be rounded. -/
inductive CornerMode where
  | random
  | outer
  | inner
deriving DecidableEq, Repr

/-- Quadrant tag of a bridge fillet record. -/
inductive Quadrant where
  | TR_GAP_FILLET
  | BL_GAP_FILLET
  | BR_GAP_FILLET
  | TL_GAP_FILLET
deriving DecidableEq, Repr

/-- Bridge record emitted at a lattice point where two cells touch diagonally. -/
structure Bridge where
  X : ℤ
  Y : ℤ
  quadrant : Quadrant
deriving DecidableEq, Repr

/-- Integer interval [lo, hi) as a list, the range of a JS for loop. -/
def intRange (lo hi : ℤ) : List ℤ :=
  (List.range (hi - lo).toNat).map fun (i : ℕ) => lo + (i : ℤ)

/-- Bridge records contributed by one interior lattice point (X, Y): the
occupied/empty diagonal tests of regenerateRounding with their
pseudo-random gates keyed on seed + 1 and seed + 2. -/
def cellBridges (prand : ℤ → ℤ → ℚ → ℚ) (px : List (ℤ × ℤ)) (seed ratio : ℚ)
    (X Y : ℤ) : List Bridge :=
  (if hasPixel px (X - 1) (Y - 1) ∧ hasPixel px X Y
      ∧ ¬ hasPixel px X (Y - 1) ∧ ¬ hasPixel px (X - 1) Y
      ∧ prand X Y (seed + 1) < ratio
   then [⟨X, Y, Quadrant.TR_GAP_FILLET⟩, ⟨X, Y, Quadrant.BL_GAP_FILLET⟩] else []) ++
  (if hasPixel px X (Y - 1) ∧ hasPixel px (X - 1) Y
      ∧ ¬ hasPixel px (X - 1) (Y - 1) ∧ ¬ hasPixel px X Y
      ∧ prand X Y (seed + 2) < ratio
   then [⟨X, Y, Quadrant.BR_GAP_FILLET⟩, ⟨X, Y, Quadrant.TL_GAP_FILLET⟩] else [])

/-- Bridge-membership marks contributed by one interior lattice point. -/
def cellBridgeMark (prand : ℤ → ℤ → ℚ → ℚ) (px : List (ℤ × ℤ)) (seed ratio : ℚ)
    (X Y : ℤ) : List (ℤ × ℤ) :=
  (if hasPixel px (X - 1) (Y - 1) ∧ hasPixel px X Y
      ∧ ¬ hasPixel px X (Y - 1) ∧ ¬ hasPixel px (X - 1) Y
      ∧ prand X Y (seed + 1) < ratio
   then [(X, Y)] else []) ++
  (if hasPixel px X (Y - 1) ∧ hasPixel px (X - 1) Y
      ∧ ¬ hasPixel px (X - 1) (Y - 1) ∧ ¬ hasPixel px X Y
      ∧ prand X Y (seed + 2) < ratio
   then [(X, Y)] else [])

/-- Interior lattice scan of regenerateRounding collecting bridge records,
X running over [1, gridWidth) and Y over [1, gridHeight). -/
def bridgeScan (prand : ℤ → ℤ → ℚ → ℚ) (px : List (ℤ × ℤ)) (seed ratio : ℚ)
    (gw gh : ℤ) : List Bridge :=
  (intRange 1 gw).flatMap fun X =>
    (intRange 1 gh).flatMap fun Y => cellBridges prand px seed ratio X Y

/-- Interior lattice scan collecting the bridge-membership set. -/
def bridgeMarkScan (prand : ℤ → ℤ → ℚ → ℚ) (px : List (ℤ × ℤ)) (seed ratio : ℚ)
    (gw gh : ℤ) : List (ℤ × ℤ) :=
  (intRange 1 gw).flatMap fun X =>
    (intRange 1 gh).flatMap fun Y => cellBridgeMark prand px seed ratio X Y

/-- Placeholder edge used only as the never-reached default of safe indexing. -/
def defaultEdge : Edge := ⟨0, 0, 0, 0, Side.top⟩

/-- Wrapping contour indexing contour[(i + 1) % contour.length]. -/
def nthWrap (l : List Edge) (k : ℕ) : Edge := l.getD (k % l.length) defaultEdge

/-- Rounded-corner selection of regenerateRounding: for each contour vertex,
skip it when the corner mode excludes its class, otherwise select it when
the pseudo-random value of its coordinates and the seed is below the
ratio.  Keys are (contour index, edge index) pairs. -/
def regenRounded (prand : ℤ → ℤ → ℚ → ℚ) (seed ratio : ℚ) (mode : CornerMode)
    (contours : List (List Edge)) : List (ℕ × ℕ) :=
  contours.enum.flatMap fun ci =>
    ci.2.enum.filterMap fun ie =>
      let nextEdge := nthWrap ci.2 (ie.1 + 1)
      let cornerType := getCornerType ie.2 nextEdge
      if (mode = CornerMode.outer ∧ cornerType ≠ CornerType.convex)
          ∨ (mode = CornerMode.inner ∧ cornerType ≠ CornerType.concave) then none
      else if prand ie.2.x2 ie.2.y2 seed < ratio then some (ci.1, ie.1) else none

/-- Derived rounding state recomputed by regenerateRounding. -/
structure RoundingResult where
  roundedCorners : List (ℕ × ℕ)
  bridges : List Bridge
  bridgeMap : List (ℤ × ℤ)
deriving DecidableEq, Repr

/-- Full derived-geometry recomputation: contour tracing, rounded-corner
selection, and the bridge scan which runs only when the corner mode is
not outer and the grid is non-empty. -/
def regenerateRounding (prand : ℤ → ℤ → ℚ → ℚ) (gw gh : ℤ) (px : List (ℤ × ℤ))
    (mode : CornerMode) (ratio seed : ℚ) : RoundingResult :=
  let contours := findContour gw gh px
  { roundedCorners := regenRounded prand seed ratio mode contours
    bridges :=
      if mode ≠ CornerMode.outer ∧ px ≠ [] then bridgeScan prand px seed ratio gw gh else []
    bridgeMap :=
      if mode ≠ CornerMode.outer ∧ px ≠ [] then bridgeMarkScan prand px seed ratio gw gh else [] }

/-- Effective rounding decision of the renderers: the vertex key must be in
the rounded-corner set and its lattice point must not be a bridge point. -/
def shouldRound (rounded : List (ℕ × ℕ)) (bridgeMap : List (ℤ × ℤ))
    (cId i : ℕ) (edge : Edge) : Bool :=
  decide ((cId, i) ∈ rounded) && ! decide ((edge.x2, edge.y2) ∈ bridgeMap)

/-- Math.sign on integers. -/
def jsSign (z : ℤ) : ℤ := if 0 < z then 1 else if z < 0 then -1 else 0

/-- Per-axis screen scales (visualPixelWidth, visualPixelHeight) of
getDisplayMetrics: the longer grid dimension maps to 700 display units. -/
def getDisplayMetrics (gw gh : ℤ) (aspectRatio : ℚ) : ℚ × ℚ :=
  let scaleFactor := 700 / max ((gw : ℚ) * aspectRatio) (gh : ℚ)
  (scaleFactor * aspectRatio, scaleFactor)

/-- SVG path command, one token group of the exported path data string. -/
inductive SvgCmd where
  | M (p : ℚ × ℚ)
  | L (p : ℚ × ℚ)
  | Q (c p : ℚ × ℚ)
  | Z
deriving DecidableEq, Repr

/-- Canvas 2D path call recorded by the raster renderer. -/
inductive CanvasCmd where
  | moveTo (p : ℚ × ℚ)
  | lineTo (p : ℚ × ℚ)
  | arcTo (c p : ℚ × ℚ) (radius : ℚ)
  | quadraticCurveTo (c p : ℚ × ℚ)
  | closePath
deriving DecidableEq, Repr

/-- Path contribution of one contour edge in getSVGString: a straight
segment to the vertex, or a back-off segment plus a quadratic curve
through the vertex when the vertex is rounded and the radius positive. -/
def svgEdgeCmds (vpw vph minDim r : ℚ) (rounded : List (ℕ × ℕ)) (bm : List (ℤ × ℤ))
    (contour : List Edge) (contourId i : ℕ) (edge : Edge) : List SvgCmd :=
  let nextEdge := nthWrap contour (i + 1)
  let px := edge.x2 * vpw
  let py := edge.y2 * vph
  if shouldRound rounded bm contourId i edge ∧ 0 < r then
    let dx1 := edge.x2 - edge.x1
    let dy1 := edge.y2 - edge.y1
    let dx2 := nextEdge.x2 - nextEdge.x1
    let dy2 := nextEdge.y2 - nextEdge.y1
    let maxR := min r (minDim * 0.5)
    let backX := px - (if dx1 ≠ 0 then (jsSign dx1 : ℚ) * maxR else 0)
    let backY := py - (if dy1 ≠ 0 then (jsSign dy1 : ℚ) * maxR else 0)
    let fwdX := px + (if dx2 ≠ 0 then (jsSign dx2 : ℚ) * maxR else 0)
    let fwdY := py + (if dy2 ≠ 0 then (jsSign dy2 : ℚ) * maxR else 0)
    [SvgCmd.L (backX, backY), SvgCmd.Q (px, py) (fwdX, fwdY)]
  else [SvgCmd.L (px, py)]

/-- Path data of one contour in getSVGString: empty contours are skipped,
otherwise a move to the first edge's start, the per-edge commands, and a
closing Z. -/
def svgContourCmds (vpw vph minDim r : ℚ) (rounded : List (ℕ × ℕ)) (bm : List (ℤ × ℤ))
    (contourId : ℕ) (contour : List Edge) : List SvgCmd :=
  match contour with
  | [] => []
  | e0 :: _ =>
    SvgCmd.M (e0.x1 * vpw, e0.y1 * vph) ::
      (contour.enum.flatMap fun ie =>
        svgEdgeCmds vpw vph minDim r rounded bm contour contourId ie.1 ie.2) ++ [SvgCmd.Z]

/-- Path contribution of one contour edge in drawScene; identical geometry
to the SVG branch except that the corner is drawn with arcTo. -/
def canvasEdgeCmds (vpw vph minDim r : ℚ) (rounded : List (ℕ × ℕ)) (bm : List (ℤ × ℤ))
    (contour : List Edge) (contourId i : ℕ) (edge : Edge) : List CanvasCmd :=
  let nextEdge := nthWrap contour (i + 1)
  let px := edge.x2 * vpw
  let py := edge.y2 * vph
  if shouldRound rounded bm contourId i edge ∧ 0 < r then
    let dx1 := edge.x2 - edge.x1
    let dy1 := edge.y2 - edge.y1
    let dx2 := nextEdge.x2 - nextEdge.x1
    let dy2 := nextEdge.y2 - nextEdge.y1
    let maxR := min r (minDim * 0.5)
    let backX := px - (if dx1 ≠ 0 then (jsSign dx1 : ℚ) * maxR else 0)
    let backY := py - (if dy1 ≠ 0 then (jsSign dy1 : ℚ) * maxR else 0)
    let fwdX := px + (if dx2 ≠ 0 then (jsSign dx2 : ℚ) * maxR else 0)
    let fwdY := py + (if dy2 ≠ 0 then (jsSign dy2 : ℚ) * maxR else 0)
    [CanvasCmd.lineTo (backX, backY), CanvasCmd.arcTo (px, py) (fwdX, fwdY) maxR]
  else [CanvasCmd.lineTo (px, py)]

/-- Path of one contour in drawScene: a move only when the contour is
non-empty, the per-edge commands, and always a closePath. -/
def canvasContourCmds (vpw vph minDim r : ℚ) (rounded : List (ℕ × ℕ)) (bm : List (ℤ × ℤ))
    (contourId : ℕ) (contour : List Edge) : List CanvasCmd :=
  (match contour with
   | [] => []
   | e0 :: _ => [CanvasCmd.moveTo (e0.x1 * vpw, e0.y1 * vph)]) ++
  (contour.enum.flatMap fun ie =>
    canvasEdgeCmds vpw vph minDim r rounded bm contour contourId ie.1 ie.2) ++
  [CanvasCmd.closePath]

/-- Bridge fillet subpath in the SVG export: M start Q vertex end, a line
back to the vertex and Z, with the radius clamped to half the smaller
cell dimension. -/
def drawBridgeFilletSvg (vpw vph : ℚ) (b : Bridge) (r : ℚ) : List SvgCmd :=
  let cx := (b.X : ℚ) * vpw
  let cy := (b.Y : ℚ) * vph
  let minDim := min vpw vph
  let maxR := min r (minDim * 0.5)
  match b.quadrant with
  | Quadrant.TR_GAP_FILLET =>
      [SvgCmd.M (cx, cy - maxR), SvgCmd.Q (cx, cy) (cx + maxR, cy), SvgCmd.L (cx, cy), SvgCmd.Z]
  | Quadrant.BL_GAP_FILLET =>
      [SvgCmd.M (cx - maxR, cy), SvgCmd.Q (cx, cy) (cx, cy + maxR), SvgCmd.L (cx, cy), SvgCmd.Z]
  | Quadrant.BR_GAP_FILLET =>
      [SvgCmd.M (cx + maxR, cy), SvgCmd.Q (cx, cy) (cx, cy + maxR), SvgCmd.L (cx, cy), SvgCmd.Z]
  | Quadrant.TL_GAP_FILLET =>
      [SvgCmd.M (cx, cy - maxR), SvgCmd.Q (cx, cy) (cx - maxR, cy), SvgCmd.L (cx, cy), SvgCmd.Z]

/-- Bridge fillet subpath on the canvas: moveTo start, quadraticCurveTo
through the vertex, then two straight closing segments. -/
def drawBridgeFilletCanvas (vpw vph : ℚ) (b : Bridge) (r : ℚ) : List CanvasCmd :=
  let cx := (b.X : ℚ) * vpw
  let cy := (b.Y : ℚ) * vph
  let minDim := min vpw vph
  let maxR := min r (minDim * 0.5)
  match b.quadrant with
  | Quadrant.TR_GAP_FILLET =>
      [CanvasCmd.moveTo (cx, cy - maxR), CanvasCmd.quadraticCurveTo (cx, cy) (cx + maxR, cy),
       CanvasCmd.lineTo (cx, cy), CanvasCmd.lineTo (cx, cy - maxR)]
  | Quadrant.BL_GAP_FILLET =>
      [CanvasCmd.moveTo (cx - maxR, cy), CanvasCmd.quadraticCurveTo (cx, cy) (cx, cy + maxR),
       CanvasCmd.lineTo (cx, cy), CanvasCmd.lineTo (cx - maxR, cy)]
  | Quadrant.BR_GAP_FILLET =>
      [CanvasCmd.moveTo (cx + maxR, cy), CanvasCmd.quadraticCurveTo (cx, cy) (cx, cy + maxR),
       CanvasCmd.lineTo (cx, cy), CanvasCmd.lineTo (cx + maxR, cy)]
  | Quadrant.TL_GAP_FILLET =>
      [CanvasCmd.moveTo (cx, cy - maxR), CanvasCmd.quadraticCurveTo (cx, cy) (cx - maxR, cy),
       CanvasCmd.lineTo (cx, cy), CanvasCmd.lineTo (cx, cy - maxR)]

/-- Complete path data built by getSVGString: all contour subpaths followed
by the bridge fillets, at radius r = roundness * minDim. -/
def getSVGPathCmds (prand : ℤ → ℤ → ℚ → ℚ) (gw gh : ℤ) (px : List (ℤ × ℤ))
    (mode : CornerMode) (ratio seed roundness aspectRatio : ℚ) : List SvgCmd :=
  let m := getDisplayMetrics gw gh aspectRatio
  let contours := findContour gw gh px
  let minDim := min m.1 m.2
  let r := roundness * minDim
  let res := regenerateRounding prand gw gh px mode ratio seed
  (contours.enum.flatMap fun cc =>
    svgContourCmds m.1 m.2 minDim r res.roundedCorners res.bridgeMap cc.1 cc.2) ++
  (if res.bridges ≠ [] ∧ 0 < r
   then res.bridges.flatMap fun b => drawBridgeFilletSvg m.1 m.2 b r
   else [])

/-- Complete blob path built by drawScene: nothing for an empty grid,
otherwise all contour subpaths followed by the bridge fillets, which are
drawn at radius r * minDim. -/
def drawScenePathCmds (prand : ℤ → ℤ → ℚ → ℚ) (gw gh : ℤ) (px : List (ℤ × ℤ))
    (mode : CornerMode) (ratio seed roundness aspectRatio : ℚ) : List CanvasCmd :=
  if px = [] then []
  else
    let m := getDisplayMetrics gw gh aspectRatio
    let contours := findContour gw gh px
    let minDim := min m.1 m.2
    let r := roundness * minDim
    let res := regenerateRounding prand gw gh px mode ratio seed
    (contours.enum.flatMap fun cc =>
      canvasContourCmds m.1 m.2 minDim r res.roundedCorners res.bridgeMap cc.1 cc.2) ++
    (if res.bridges ≠ [] ∧ 0 < r
     then res.bridges.flatMap fun b => drawBridgeFilletCanvas m.1 m.2 b (r * minDim)
     else [])

/-- Common geometric skeleton of a path command: anchor and control points
with the curve kind and any radius argument forgotten. -/
inductive GeoCmd where
  | move (p : ℚ × ℚ)
  | line (p : ℚ × ℚ)
  | corner (c p : ℚ × ℚ)
  | close
deriving DecidableEq, Repr

/-- Geometric skeleton of an SVG command. -/
def svgSkeleton : SvgCmd → GeoCmd
  | SvgCmd.M p => GeoCmd.move p
  | SvgCmd.L p => GeoCmd.line p
  | SvgCmd.Q c p => GeoCmd.corner c p
  | SvgCmd.Z => GeoCmd.close

/-- Geometric skeleton of a canvas command. -/
def canvasSkeleton : CanvasCmd → GeoCmd
  | CanvasCmd.moveTo p => GeoCmd.move p
  | CanvasCmd.lineTo p => GeoCmd.line p
  | CanvasCmd.arcTo c p _ => GeoCmd.corner c p
  | CanvasCmd.quadraticCurveTo c p => GeoCmd.corner c p
  | CanvasCmd.closePath => GeoCmd.close

/-- Per-edge path emission exactly as the specification words it: a straight
segment to the edge's endpoint, or, when that vertex is selected for
rounding and the radius is positive, a segment to the point backed off
from the vertex along the incoming edge's direction by
min(roundness * minCellDimension, minCellDimension / 2), then a quadratic
curve with the vertex as control point ending at the symmetric offset
point along the outgoing edge's direction. -/
def specEdgeCmds (vpw vph roundness : ℚ) (rounded : List (ℕ × ℕ)) (bm : List (ℤ × ℤ))
    (contour : List Edge) (contourId i : ℕ) (edge : Edge) : List SvgCmd :=
  let minDim := min vpw vph
  let maxR := min (roundness * minDim) (minDim / 2)
  let nextEdge := nthWrap contour (i + 1)
  let vx := edge.x2 * vpw
  let vy := edge.y2 * vph
  if shouldRound rounded bm contourId i edge ∧ 0 < roundness * minDim then
    [SvgCmd.L (vx - (jsSign (edge.x2 - edge.x1) : ℚ) * maxR,
               vy - (jsSign (edge.y2 - edge.y1) : ℚ) * maxR),
     SvgCmd.Q (vx, vy)
       (vx + (jsSign (nextEdge.x2 - nextEdge.x1) : ℚ) * maxR,
        vy + (jsSign (nextEdge.y2 - nextEdge.y1) : ℚ) * maxR)]
  else [SvgCmd.L (vx, vy)]

/-- Per-contour path as the specification words it: move to the first
edge's start point, emit the per-edge commands in order, then close the
subpath. -/
def specContourPath (vpw vph roundness : ℚ) (rounded : List (ℕ × ℕ)) (bm : List (ℤ × ℤ))
    (contourId : ℕ) (contour : List Edge) : List SvgCmd :=
  match contour with
  | [] => []
  | e0 :: _ =>
    SvgCmd.M (e0.x1 * vpw, e0.y1 * vph) ::
      (contour.enum.flatMap fun ie =>
        specEdgeCmds vpw vph roundness rounded bm contour contourId ie.1 ie.2) ++ [SvgCmd.Z]

/-- Active drawing tool. -/
inductive Tool where
  | brush
  | eraser
deriving DecidableEq, Repr

/-- JS Set.add semantics on the insertion-ordered pixel list. -/
def setAdd (l : List (ℤ × ℤ)) (p : ℤ × ℤ) : List (ℤ × ℤ) :=
  if p ∈ l then l else l ++ [p]

/-- Cells covered by the square brush footprint at one point: dy and dx run
over [0, brushSize) and the point is shifted by floor(brushSize / 2). -/
def brushCells (brushSize : ℕ) (pt : ℤ × ℤ) : List (ℤ × ℤ) :=
  let offset : ℤ := (brushSize : ℤ) / 2
  (List.range brushSize).flatMap fun (dy : ℕ) =>
    (List.range brushSize).map fun (dx : ℕ) =>
      (pt.1 + (dx : ℤ) - offset, pt.2 + (dy : ℤ) - offset)

/-- Single-cell effect of updatePixels: inside the grid bounds the brush
inserts and the eraser deletes; out-of-bounds cells are left untouched. -/
def applyBrushCell (gw gh : ℤ) (tool : Tool) (l : List (ℤ × ℤ)) (c : ℤ × ℤ) : List (ℤ × ℤ) :=
  if 0 ≤ c.1 ∧ c.1 < gw ∧ 0 ≤ c.2 ∧ c.2 < gh then
    match tool with
    | Tool.brush => setAdd l c
    | Tool.eraser => l.erase c
  else l

/-- Batch pixel update of updatePixels: every point of the stroke expands to
its brush footprint and the cells are applied in iteration order. -/
def updatePixels (gw gh : ℤ) (brushSize : ℕ) (tool : Tool) (points : List (ℤ × ℤ))
    (l : List (ℤ × ℤ)) : List (ℤ × ℤ) :=
  (points.flatMap (brushCells brushSize)).foldl (applyBrushCell gw gh tool) l

/-- Mutable editor state relevant to history: the pixel grid, the undo
snapshot stack and the redo stack. -/
structure EditorState where
  pixels : List (ℤ × ℤ)
  history : List (List (ℤ × ℤ))
  redoStack : List (List (ℤ × ℤ))
deriving DecidableEq, Repr

/-- Duplicate-snapshot test of saveToHistory: equal sizes and every element
of the last snapshot present in the current pixels. -/
def sameGrid (a b : List (ℤ × ℤ)) : Bool :=
  a.length == b.length && a.all fun x => decide (x ∈ b)

/-- Append the current pixels to the history, keep only the 50 most recent
snapshots, and clear the redo stack. -/
def pushSnapshot (st : EditorState) : EditorState :=
  { pixels := st.pixels
    history := (st.history ++ [st.pixels]).drop (st.history.length + 1 - 50)
    redoStack := [] }

/-- saveToHistory: skip the snapshot when it would duplicate the most recent
one, otherwise push it and clear the redo stack. -/
def saveToHistory (st : EditorState) : EditorState :=
  match st.history.getLast? with
  | some lastState => if sameGrid lastState st.pixels then st else pushSnapshot st
  | none => pushSnapshot st

/-- handleUndo: restore the last snapshot, pushing the current grid onto the
redo stack; no-op when the history is empty. -/
def handleUndo (st : EditorState) : EditorState :=
  match st.history.getLast? with
  | none => st
  | some previousState =>
    { pixels := previousState
      history := st.history.dropLast
      redoStack := st.pixels :: st.redoStack }

/-- handleRedo: restore the first redo entry, pushing the current grid onto
the history; no-op when the redo stack is empty. -/
def handleRedo (st : EditorState) : EditorState :=
  match st.redoStack with
  | [] => st
  | nextState :: rest =>
    { pixels := nextState
      history := st.history ++ [st.pixels]
      redoStack := rest }

/-- One paint stroke as performed by handlePointerDown: snapshot the current
grid, then apply the brush to the stroke's points. -/
def paintStroke (gw gh : ℤ) (brushSize : ℕ) (points : List (ℤ × ℤ))
    (st : EditorState) : EditorState :=
  let st1 := saveToHistory st
  { pixels := updatePixels gw gh brushSize Tool.brush points st1.pixels
    history := st1.history
    redoStack := st1.redoStack }

/-- Sequential execution of paint strokes. -/
def runStrokes (gw gh : ℤ) (brushSize : ℕ) (strokes : List (List (ℤ × ℤ)))
    (st : EditorState) : EditorState :=
  strokes.foldl (fun s pts => paintStroke gw gh brushSize pts s) st

/-- Grid contents before and after each stroke of a sequence: element k is
the grid after the first k strokes. -/
def gridsOf (gw gh : ℤ) (brushSize : ℕ) (g : List (ℤ × ℤ))
    (strokes : List (List (ℤ × ℤ))) : List (List (ℤ × ℤ)) :=
  strokes.scanl (fun s pts => updatePixels gw gh brushSize Tool.brush pts s) g

/-- Iterated undo. -/
def undoN : ℕ → EditorState → EditorState
  | 0, st => st
  | n + 1, st => undoN n (handleUndo st)

/-- Iterated redo. -/
def redoN : ℕ → EditorState → EditorState
  | 0, st => st
  | n + 1, st => redoN n (handleRedo st)

/-- Membership test of the grid rectangle [0, gw) x [0, gh). -/
def inGrid (gw gh : ℤ) (c : ℤ × ℤ) : Prop :=
  0 ≤ c.1 ∧ c.1 < gw ∧ 0 ≤ c.2 ∧ c.2 < gh

instance (gw gh : ℤ) (c : ℤ × ℤ) : Decidable (inGrid gw gh c) := by
  unfold inGrid; infer_instance

/-- Coverage of a cell by the brush footprint of some stroke point: the
size-wide square placed at the point, shifted by floor(size / 2). -/
def coveredBy (points : List (ℤ × ℤ)) (brushSize : ℕ) (q : ℤ × ℤ) : Prop :=
  ∃ pt ∈ points,
    pt.1 - (brushSize : ℤ) / 2 ≤ q.1 ∧ q.1 < pt.1 - (brushSize : ℤ) / 2 + brushSize ∧
    pt.2 - (brushSize : ℤ) / 2 ≤ q.2 ∧ q.2 < pt.2 - (brushSize : ℤ) / 2 + brushSize

instance (points : List (ℤ × ℤ)) (brushSize : ℕ) (q : ℤ × ℤ) :
    Decidable (coveredBy points brushSize q) := by
  unfold coveredBy; infer_instance

/-- Positive-diagonal touch at a lattice point: the top-left and
bottom-right cells are occupied while the other diagonal is empty. -/
def posDiagonal (px : List (ℤ × ℤ)) (X Y : ℤ) : Prop :=
  (X - 1, Y - 1) ∈ px ∧ (X, Y) ∈ px ∧ (X, Y - 1) ∉ px ∧ (X - 1, Y) ∉ px

instance (px : List (ℤ × ℤ)) (X Y : ℤ) : Decidable (posDiagonal px X Y) := by
  unfold posDiagonal; infer_instance

/-- Negative-diagonal touch at a lattice point: the top-right and
bottom-left cells are occupied while the other diagonal is empty. -/
def negDiagonal (px : List (ℤ × ℤ)) (X Y : ℤ) : Prop :=
  (X, Y - 1) ∈ px ∧ (X - 1, Y) ∈ px ∧ (X - 1, Y - 1) ∉ px ∧ (X, Y) ∉ px

instance (px : List (ℤ × ℤ)) (X Y : ℤ) : Decidable (negDiagonal px X Y) := by
  unfold negDiagonal; infer_instance

lemma mem_brushCells (brushSize : ℕ) (pt q : ℤ × ℤ) :
    q ∈ brushCells brushSize pt ↔
      pt.1 - (brushSize : ℤ) / 2 ≤ q.1 ∧ q.1 < pt.1 - (brushSize : ℤ) / 2 + brushSize ∧
      pt.2 - (brushSize : ℤ) / 2 ≤ q.2 ∧ q.2 < pt.2 - (brushSize : ℤ) / 2 + brushSize := by
  obtain ⟨qx, qy⟩ := q
  obtain ⟨ptx, pty⟩ := pt
  unfold brushCells
  constructor
  · intro hmem
    obtain ⟨dy, hdy, hmem2⟩ := List.mem_flatMap.mp hmem
    obtain ⟨dx, hdx, heq⟩ := List.mem_map.mp hmem2
    rw [List.mem_range] at hdy hdx
    injection heq with h1 h2
    simp only at h1 h2 ⊢
    omega
  · rintro ⟨h1, h2, h3, h4⟩
    simp only at h1 h2 h3 h4
    refine List.mem_flatMap.mpr ⟨(qy - (pty - (brushSize : ℤ) / 2)).toNat,
      List.mem_range.mpr (by omega), ?_⟩
    refine List.mem_map.mpr ⟨(qx - (ptx - (brushSize : ℤ) / 2)).toNat,
      List.mem_range.mpr (by omega), ?_⟩
    rw [Prod.mk.injEq]
    exact ⟨by omega, by omega⟩

lemma applyBrushCell_spec (gw gh : ℤ) (tool : Tool) (l : List (ℤ × ℤ)) (c : ℤ × ℤ)
    (hnd : l.Nodup) :
    (applyBrushCell gw gh tool l c).Nodup ∧
    (∀ q, q ∈ applyBrushCell gw gh tool l c ↔
      match tool with
      | Tool.brush => q ∈ l ∨ (q = c ∧ inGrid gw gh c)
      | Tool.eraser => q ∈ l ∧ ¬(q = c ∧ inGrid gw gh c)) := by
  unfold applyBrushCell
  by_cases hb : 0 ≤ c.1 ∧ c.1 < gw ∧ 0 ≤ c.2 ∧ c.2 < gh
  · have hg : inGrid gw gh c := hb
    rw [if_pos hb]
    cases tool with
    | brush =>
        unfold setAdd
        by_cases hc : c ∈ l
        · rw [if_pos hc]
          refine ⟨hnd, fun q => ?_⟩
          simp only []
          constructor
          · exact fun h => Or.inl h
          · rintro (h | ⟨rfl, _⟩) <;> [exact h; exact hc]
        · rw [if_neg hc]
          refine ⟨?_, fun q => ?_⟩
          · simpa [List.nodup_append, hc] using hnd
          · simp only [List.mem_append, List.mem_singleton]
            constructor
            · rintro (h | rfl)
              · exact Or.inl h
              · exact Or.inr ⟨rfl, hg⟩
            · rintro (h | ⟨rfl, _⟩)
              · exact Or.inl h
              · exact Or.inr rfl
    | eraser =>
        refine ⟨hnd.erase c, fun q => ?_⟩
        simp only []
        rw [hnd.mem_erase_iff]
        constructor
        · rintro ⟨hne, hq⟩
          exact ⟨hq, fun hcc => hne hcc.1⟩
        · rintro ⟨hq, hcc⟩
          refine ⟨fun he => hcc ⟨he, hg⟩, hq⟩
  · have hg : ¬ inGrid gw gh c := hb
    rw [if_neg hb]
    refine ⟨hnd, fun q => ?_⟩
    cases tool with
    | brush =>
        simp only []
        constructor
        · exact fun h => Or.inl h
        · rintro (h | ⟨_, hgg⟩) <;> [exact h; exact absurd hgg hg]
    | eraser =>
        simp only []
        constructor
        · exact fun h => ⟨h, fun hcc => hg hcc.2⟩
        · exact fun h => h.1

lemma foldl_applyBrushCell_spec (gw gh : ℤ) (tool : Tool) :
    ∀ (cs l : List (ℤ × ℤ)), l.Nodup →
      (cs.foldl (applyBrushCell gw gh tool) l).Nodup ∧
      (∀ q, q ∈ cs.foldl (applyBrushCell gw gh tool) l ↔
        match tool with
        | Tool.brush => q ∈ l ∨ (∃ c ∈ cs, q = c ∧ inGrid gw gh c)
        | Tool.eraser => q ∈ l ∧ ¬ ∃ c ∈ cs, q = c ∧ inGrid gw gh c) := by
  intro cs
  induction cs with
  | nil =>
      intro l hnd
      cases tool <;> simp [hnd]
  | cons c cs ih =>
      intro l hnd
      obtain ⟨hnd1, hmem1⟩ := applyBrushCell_spec gw gh tool l c hnd
      obtain ⟨hnd2, hmem2⟩ := ih (applyBrushCell gw gh tool l c) hnd1
      refine ⟨hnd2, fun q => ?_⟩
      rw [List.foldl_cons] at *
      cases tool with
      | brush =>
          rw [hmem2 q]
          simp only [hmem1 q, List.mem_cons]
          constructor
          · rintro ((h | h) | ⟨d, hd, hqd⟩)
            · exact Or.inl h
            · exact Or.inr ⟨c, Or.inl rfl, h⟩
            · exact Or.inr ⟨d, Or.inr hd, hqd⟩
          · rintro (h | ⟨d, (rfl | hd), hqd⟩)
            · exact Or.inl (Or.inl h)
            · exact Or.inl (Or.inr hqd)
            · exact Or.inr ⟨d, hd, hqd⟩
      | eraser =>
          rw [hmem2 q]
          simp only [hmem1 q, List.mem_cons]
          constructor
          · rintro ⟨⟨hq, hnc⟩, hncs⟩
            refine ⟨hq, ?_⟩
            rintro ⟨d, (rfl | hd), hqd⟩
            · exact hnc hqd
            · exact hncs ⟨d, hd, hqd⟩
          · rintro ⟨hq, hn⟩
            refine ⟨⟨hq, fun hc => hn ⟨c, Or.inl rfl, hc⟩⟩, ?_⟩
            rintro ⟨d, hd, hqd⟩
            exact hn ⟨d, Or.inr hd, hqd⟩

/-- C9: updatePixels marks exactly the in-bounds cells of the size-wide
brush squares placed at the stroke points (occupied for the brush,
cleared for the eraser); out-of-bounds cells are silently skipped and
every uncovered cell keeps its previous occupancy. -/
theorem claim_C9 (gw gh : ℤ) (brushSize : ℕ) (points l : List (ℤ × ℤ))
    (hnd : l.Nodup) :
    (∀ q, q ∈ updatePixels gw gh brushSize Tool.brush points l ↔
       q ∈ l ∨ (coveredBy points brushSize q ∧ inGrid gw gh q))
    ∧ (∀ q, q ∈ updatePixels gw gh brushSize Tool.eraser points l ↔
       q ∈ l ∧ ¬ (coveredBy points brushSize q ∧ inGrid gw gh q)) := by
  have key : ∀ q, (∃ c ∈ points.flatMap (brushCells brushSize), q = c ∧ inGrid gw gh c)
      ↔ (coveredBy points brushSize q ∧ inGrid gw gh q) := by
    intro q
    constructor
    · rintro ⟨c, hc, rfl, hg⟩
      obtain ⟨pt, hpt, hcell⟩ := List.mem_flatMap.mp hc
      exact ⟨⟨pt, hpt, (mem_brushCells brushSize pt q).mp hcell⟩, hg⟩
    · rintro ⟨⟨pt, hpt, hsq⟩, hg⟩
      refine ⟨q, List.mem_flatMap.mpr ⟨pt, hpt, (mem_brushCells brushSize pt q).mpr hsq⟩, rfl, hg⟩
  constructor
  · intro q
    rw [updatePixels,
      (foldl_applyBrushCell_spec gw gh Tool.brush (points.flatMap (brushCells brushSize)) l hnd).2 q]
    simp only [key q]
  · intro q
    rw [updatePixels,
      (foldl_applyBrushCell_spec gw gh Tool.eraser (points.flatMap (brushCells brushSize)) l hnd).2 q]
    simp only [key q]

/-- C9 witness at a concrete stroke: brush size 2 at point (1, 1) on a 4 x 4
grid over the empty store, and an eraser pass over a populated store. -/
theorem claim_C9_witness :
    ([] : List (ℤ × ℤ)).Nodup ∧
    ((0, 0) ∈ updatePixels 4 4 2 Tool.brush [(1, 1)] [] ↔
      (0, 0) ∈ ([] : List (ℤ × ℤ)) ∨ (coveredBy [(1, 1)] 2 (0, 0) ∧ inGrid 4 4 (0, 0))) :=
  ⟨List.nodup_nil, (claim_C9 4 4 2 [(1, 1)] [] List.nodup_nil).1 (0, 0)⟩

/-- C5: a vertex shared by two consecutive edges is classified convex
exactly when the 2D cross product of the two direction vectors is
positive and concave exactly when it is non-positive; collinear edges
(cross product zero) are classified concave. -/
theorem claim_C5 (edge1 edge2 : Edge) :
    (getCornerType edge1 edge2 = CornerType.convex ↔
      0 < (edge1.x2 - edge1.x1) * (edge2.y2 - edge2.y1)
          - (edge1.y2 - edge1.y1) * (edge2.x2 - edge2.x1))
    ∧ (getCornerType edge1 edge2 = CornerType.concave ↔
      (edge1.x2 - edge1.x1) * (edge2.y2 - edge2.y1)
          - (edge1.y2 - edge1.y1) * (edge2.x2 - edge2.x1) ≤ 0)
    ∧ ((edge1.x2 - edge1.x1) * (edge2.y2 - edge2.y1)
          - (edge1.y2 - edge1.y1) * (edge2.x2 - edge2.x1) = 0 →
      getCornerType edge1 edge2 = CornerType.concave) := by
  have hunfold : getCornerType edge1 edge2 =
      if 0 < (edge1.x2 - edge1.x1) * (edge2.y2 - edge2.y1)
          - (edge1.y2 - edge1.y1) * (edge2.x2 - edge2.x1)
      then CornerType.convex else CornerType.concave := rfl
  rw [hunfold]
  split_ifs with h
  · refine ⟨⟨fun _ => h, fun _ => rfl⟩, ⟨fun hc => ?_, fun hle => ?_⟩, fun hz => ?_⟩
    · exact absurd hc (by simp)
    · exact absurd h (by omega)
    · exact absurd h (by omega)
  · refine ⟨⟨fun hc => ?_, fun hlt => absurd hlt h⟩,
      ⟨fun _ => by omega, fun _ => rfl⟩, fun _ => rfl⟩
    · exact absurd hc (by simp)

/-- C5 witness: two collinear horizontal edges form a concave corner. -/
theorem claim_C5_witness :
    getCornerType ⟨0, 0, 1, 0, Side.top⟩ ⟨1, 0, 2, 0, Side.top⟩ = CornerType.concave :=
  (claim_C5 ⟨0, 0, 1, 0, Side.top⟩ ⟨1, 0, 2, 0, Side.top⟩).2.2 (by decide)

/-- C2: the derived-geometry recomputation is deterministic: identical grid
contents and identical seed, ratio, mode and grid dimensions yield an
identical rounded-corner set, bridge list and bridge-membership map, for
every pseudo-random function; and the pseudo-random hash itself returns
the same value whenever given the same inputs. -/
theorem claim_C2 :
    (∀ x₁ y₁ s₁ x₂ y₂ s₂ : ℝ, x₁ = x₂ → y₁ = y₂ → s₁ = s₂ →
      pseudoRandom x₁ y₁ s₁ = pseudoRandom x₂ y₂ s₂)
    ∧ (∀ (prand₁ prand₂ : ℤ → ℤ → ℚ → ℚ) (gw₁ gw₂ gh₁ gh₂ : ℤ)
        (px₁ px₂ : List (ℤ × ℤ)) (mode₁ mode₂ : CornerMode) (ratio₁ ratio₂ seed₁ seed₂ : ℚ),
        prand₁ = prand₂ → gw₁ = gw₂ → gh₁ = gh₂ → px₁ = px₂ → mode₁ = mode₂ →
        ratio₁ = ratio₂ → seed₁ = seed₂ →
        regenerateRounding prand₁ gw₁ gh₁ px₁ mode₁ ratio₁ seed₁ =
          regenerateRounding prand₂ gw₂ gh₂ px₂ mode₂ ratio₂ seed₂) := by
  constructor
  · intro x₁ y₁ s₁ x₂ y₂ s₂ hx hy hs
    rw [hx, hy, hs]
  · intro prand₁ prand₂ gw₁ gw₂ gh₁ gh₂ px₁ px₂ mode₁ mode₂ ratio₁ ratio₂ seed₁ seed₂
      hp hw hh hpx hm hr hs
    rw [hp, hw, hh, hpx, hm, hr, hs]

lemma hasPixel_iff (px : List (ℤ × ℤ)) (x y : ℤ) :
    hasPixel px x y = true ↔ (x, y) ∈ px := by
  unfold hasPixel; exact decide_eq_true_iff

lemma mem_intRange (lo hi a : ℤ) : a ∈ intRange lo hi ↔ lo ≤ a ∧ a < hi := by
  unfold intRange
  constructor
  · intro hmem
    obtain ⟨i, hi2, heq⟩ := List.mem_map.mp hmem
    rw [List.mem_range] at hi2
    omega
  · rintro ⟨h1, h2⟩
    exact List.mem_map.mpr ⟨(a - lo).toNat, List.mem_range.mpr (by omega), by omega⟩

lemma intRange_cons (lo hi : ℤ) (h : lo < hi) :
    intRange lo hi = lo :: intRange (lo + 1) hi := by
  unfold intRange
  have hn : (hi - lo).toNat = (hi - (lo + 1)).toNat + 1 := by omega
  rw [hn, List.range_succ_eq_map, List.map_cons, List.map_map]
  have h0 : lo + ((0 : ℕ) : ℤ) = lo := by norm_num
  rw [h0]
  congr 1
  apply List.map_congr_left
  intro j hj
  simp only [Function.comp_apply]
  push_cast
  ring

lemma mem_cellBridges_fields (prand : ℤ → ℤ → ℚ → ℚ) (px : List (ℤ × ℤ))
    (seed ratio : ℚ) (X Y : ℤ) :
    ∀ b ∈ cellBridges prand px seed ratio X Y, b.X = X ∧ b.Y = Y := by
  intro b hb
  unfold cellBridges at hb
  rw [List.mem_append] at hb
  rcases hb with hb | hb <;> split_ifs at hb <;>
    simp only [List.mem_cons, List.not_mem_nil, or_false] at hb <;>
    rcases hb with rfl | rfl <;> exact ⟨rfl, rfl⟩

lemma mem_cellBridges_tr (prand : ℤ → ℤ → ℚ → ℚ) (px : List (ℤ × ℤ))
    (seed ratio : ℚ) (X Y : ℤ) :
    (Bridge.mk X Y Quadrant.TR_GAP_FILLET ∈ cellBridges prand px seed ratio X Y
      ∧ Bridge.mk X Y Quadrant.BL_GAP_FILLET ∈ cellBridges prand px seed ratio X Y) ↔
    (posDiagonal px X Y ∧ prand X Y (seed + 1) < ratio) := by
  unfold cellBridges posDiagonal
  simp only [List.mem_append, List.mem_cons, List.not_mem_nil]
  split_ifs with h1 h2 h2 <;>
    simp_all [hasPixel_iff, Bridge.mk.injEq]

lemma mem_cellBridges_br (prand : ℤ → ℤ → ℚ → ℚ) (px : List (ℤ × ℤ))
    (seed ratio : ℚ) (X Y : ℤ) :
    (Bridge.mk X Y Quadrant.BR_GAP_FILLET ∈ cellBridges prand px seed ratio X Y
      ∧ Bridge.mk X Y Quadrant.TL_GAP_FILLET ∈ cellBridges prand px seed ratio X Y) ↔
    (negDiagonal px X Y ∧ prand X Y (seed + 2) < ratio) := by
  unfold cellBridges negDiagonal
  simp only [List.mem_append, List.mem_cons, List.not_mem_nil]
  split_ifs with h1 h2 h2 <;>
    simp_all [hasPixel_iff, Bridge.mk.injEq]

lemma mem_cellBridgeMark (prand : ℤ → ℤ → ℚ → ℚ) (px : List (ℤ × ℤ))
    (seed ratio : ℚ) (X Y : ℤ) (p : ℤ × ℤ) :
    p ∈ cellBridgeMark prand px seed ratio X Y ↔
      (p = (X, Y) ∧ ((posDiagonal px X Y ∧ prand X Y (seed + 1) < ratio)
        ∨ (negDiagonal px X Y ∧ prand X Y (seed + 2) < ratio))) := by
  unfold cellBridgeMark posDiagonal negDiagonal
  simp only [List.mem_append, List.mem_cons, List.not_mem_nil]
  split_ifs with h1 h2 h2 <;>
    simp_all [hasPixel_iff]

lemma mem_bridgeScan (prand : ℤ → ℤ → ℚ → ℚ) (px : List (ℤ × ℤ))
    (seed ratio : ℚ) (gw gh : ℤ) (b : Bridge) :
    b ∈ bridgeScan prand px seed ratio gw gh ↔
      (1 ≤ b.X ∧ b.X < gw) ∧ (1 ≤ b.Y ∧ b.Y < gh)
        ∧ b ∈ cellBridges prand px seed ratio b.X b.Y := by
  unfold bridgeScan
  constructor
  · intro hb
    obtain ⟨X, hX, hb2⟩ := List.mem_flatMap.mp hb
    obtain ⟨Y, hY, hb3⟩ := List.mem_flatMap.mp hb2
    obtain ⟨hbX, hbY⟩ := mem_cellBridges_fields prand px seed ratio X Y b hb3
    rw [mem_intRange] at hX hY
    subst hbX; subst hbY
    exact ⟨hX, hY, hb3⟩
  · rintro ⟨hX, hY, hb3⟩
    exact List.mem_flatMap.mpr ⟨b.X, (mem_intRange 1 gw b.X).mpr hX,
      List.mem_flatMap.mpr ⟨b.Y, (mem_intRange 1 gh b.Y).mpr hY, hb3⟩⟩

lemma mem_bridgeMarkScan (prand : ℤ → ℤ → ℚ → ℚ) (px : List (ℤ × ℤ))
    (seed ratio : ℚ) (gw gh : ℤ) (p : ℤ × ℤ) :
    p ∈ bridgeMarkScan prand px seed ratio gw gh ↔
      (1 ≤ p.1 ∧ p.1 < gw) ∧ (1 ≤ p.2 ∧ p.2 < gh)
        ∧ ((posDiagonal px p.1 p.2 ∧ prand p.1 p.2 (seed + 1) < ratio)
          ∨ (negDiagonal px p.1 p.2 ∧ prand p.1 p.2 (seed + 2) < ratio)) := by
  unfold bridgeMarkScan
  constructor
  · intro hp
    obtain ⟨X, hX, hp2⟩ := List.mem_flatMap.mp hp
    obtain ⟨Y, hY, hp3⟩ := List.mem_flatMap.mp hp2
    obtain ⟨rfl, hcond⟩ := (mem_cellBridgeMark prand px seed ratio X Y p).mp hp3
    rw [mem_intRange] at hX hY
    exact ⟨hX, hY, hcond⟩
  · rintro ⟨hX, hY, hcond⟩
    exact List.mem_flatMap.mpr ⟨p.1, (mem_intRange 1 gw p.1).mpr hX,
      List.mem_flatMap.mpr ⟨p.2, (mem_intRange 1 gh p.2).mpr hY,
        (mem_cellBridgeMark prand px seed ratio p.1 p.2 p).mpr ⟨by cases p; rfl, hcond⟩⟩⟩

lemma regen_bridges_eq (prand : ℤ → ℤ → ℚ → ℚ) (gw gh : ℤ) (px : List (ℤ × ℤ))
    (mode : CornerMode) (ratio seed : ℚ)
    (hmode : mode ≠ CornerMode.outer) (hne : px ≠ []) :
    (regenerateRounding prand gw gh px mode ratio seed).bridges =
      bridgeScan prand px seed ratio gw gh := by
  show (if mode ≠ CornerMode.outer ∧ px ≠ []
        then bridgeScan prand px seed ratio gw gh else []) =
      bridgeScan prand px seed ratio gw gh
  rw [if_pos ⟨hmode, hne⟩]

lemma regen_bridgeMap_eq (prand : ℤ → ℤ → ℚ → ℚ) (gw gh : ℤ) (px : List (ℤ × ℤ))
    (mode : CornerMode) (ratio seed : ℚ)
    (hmode : mode ≠ CornerMode.outer) (hne : px ≠ []) :
    (regenerateRounding prand gw gh px mode ratio seed).bridgeMap =
      bridgeMarkScan prand px seed ratio gw gh := by
  show (if mode ≠ CornerMode.outer ∧ px ≠ []
        then bridgeMarkScan prand px seed ratio gw gh else []) =
      bridgeMarkScan prand px seed ratio gw gh
  rw [if_pos ⟨hmode, hne⟩]

lemma regen_bridges_nil (prand : ℤ → ℤ → ℚ → ℚ) (gw gh : ℤ) (px : List (ℤ × ℤ))
    (mode : CornerMode) (ratio seed : ℚ)
    (h : mode = CornerMode.outer ∨ px = []) :
    (regenerateRounding prand gw gh px mode ratio seed).bridges = []
      ∧ (regenerateRounding prand gw gh px mode ratio seed).bridgeMap = [] := by
  have hc : ¬ (mode ≠ CornerMode.outer ∧ px ≠ []) := by
    rcases h with h | h
    · exact fun hx => hx.1 h
    · exact fun hx => hx.2 h
  constructor
  · show (if mode ≠ CornerMode.outer ∧ px ≠ []
          then bridgeScan prand px seed ratio gw gh else []) = []
    rw [if_neg hc]
  · show (if mode ≠ CornerMode.outer ∧ px ≠ []
          then bridgeMarkScan prand px seed ratio gw gh else []) = []
    rw [if_neg hc]

lemma flatMap_nil_of_forall {α β : Type} (l : List α) (f : α → List β)
    (h : ∀ a ∈ l, f a = []) : l.flatMap f = [] := by
  induction l with
  | nil => rfl
  | cons a t ih =>
      rw [List.flatMap_cons, h a (List.mem_cons_self a t), List.nil_append]
      exact ih fun b hb => h b (List.mem_cons_of_mem a hb)

lemma cellBridges_diag_nil (prand : ℤ → ℤ → ℚ → ℚ) (seed : ℚ) (X Y : ℤ)
    (h : ¬ (X = 1 ∧ Y = 1)) (hX : 1 ≤ X) (hY : 1 ≤ Y) :
    cellBridges prand [(0, 0), (1, 1)] seed 1 X Y = [] := by
  unfold cellBridges
  rw [if_neg, if_neg, List.append_nil]
  · rintro ⟨h1, h2, h3, h4, h5⟩
    rw [hasPixel_iff] at h1 h2
    simp only [List.mem_cons, List.not_mem_nil, or_false, Prod.mk.injEq] at h1 h2
    omega
  · rintro ⟨h1, h2, h3, h4, h5⟩
    rw [hasPixel_iff] at h1 h2
    simp only [List.mem_cons, List.not_mem_nil, or_false, Prod.mk.injEq] at h1 h2
    omega

lemma cellBridges_diag_one (prand : ℤ → ℤ → ℚ → ℚ) (seed : ℚ)
    (hpr : prand 1 1 (seed + 1) < 1) :
    cellBridges prand [(0, 0), (1, 1)] seed 1 1 1 =
      [Bridge.mk 1 1 Quadrant.TR_GAP_FILLET, Bridge.mk 1 1 Quadrant.BL_GAP_FILLET] := by
  unfold cellBridges
  rw [if_pos ⟨by decide, by decide, by decide, by decide, hpr⟩, if_neg, List.append_nil]
  rintro ⟨h1, h2, h3, h4, h5⟩
  exact h4 (by decide)

/-- C3: at every interior lattice point, when the corner mode is not outer
and the grid is non-empty, the paired TR/BL bridge records together with
the bridge-membership mark appear exactly when the positive diagonal is
occupied, the other diagonal empty and the seed+1 pseudo-random value is
below the ratio; symmetrically BR/TL records are keyed on seed+2; no
bridges at all are produced in outer mode or on an empty grid; and the
two-cell diagonal grid with ratio 1 produces exactly the TR/BL pair at
lattice point (1, 1). -/
theorem claim_C3 (prand : ℤ → ℤ → ℚ → ℚ) (gw gh : ℤ) (px : List (ℤ × ℤ))
    (mode : CornerMode) (ratio seed : ℚ) (X Y : ℤ)
    (hmode : mode ≠ CornerMode.outer) (hne : px ≠ [])
    (hX : 1 ≤ X ∧ X < gw) (hY : 1 ≤ Y ∧ Y < gh) :
    ((Bridge.mk X Y Quadrant.TR_GAP_FILLET
        ∈ (regenerateRounding prand gw gh px mode ratio seed).bridges
      ∧ Bridge.mk X Y Quadrant.BL_GAP_FILLET
        ∈ (regenerateRounding prand gw gh px mode ratio seed).bridges
      ∧ (X, Y) ∈ (regenerateRounding prand gw gh px mode ratio seed).bridgeMap)
      ↔ (posDiagonal px X Y ∧ prand X Y (seed + 1) < ratio))
    ∧ ((Bridge.mk X Y Quadrant.BR_GAP_FILLET
        ∈ (regenerateRounding prand gw gh px mode ratio seed).bridges
      ∧ Bridge.mk X Y Quadrant.TL_GAP_FILLET
        ∈ (regenerateRounding prand gw gh px mode ratio seed).bridges
      ∧ (X, Y) ∈ (regenerateRounding prand gw gh px mode ratio seed).bridgeMap)
      ↔ (negDiagonal px X Y ∧ prand X Y (seed + 2) < ratio))
    ∧ (∀ (mode2 : CornerMode) (px2 : List (ℤ × ℤ)) (gw2 gh2 : ℤ) (ratio2 seed2 : ℚ),
        mode2 = CornerMode.outer ∨ px2 = [] →
        (regenerateRounding prand gw2 gh2 px2 mode2 ratio2 seed2).bridges = []
          ∧ (regenerateRounding prand gw2 gh2 px2 mode2 ratio2 seed2).bridgeMap = [])
    ∧ ((∀ x y s, 0 ≤ prand x y s ∧ prand x y s < 1) →
        ∀ (gw2 gh2 : ℤ), 2 ≤ gw2 → 2 ≤ gh2 →
        (regenerateRounding prand gw2 gh2 [(0, 0), (1, 1)] CornerMode.random 1 seed).bridges
          = [Bridge.mk 1 1 Quadrant.TR_GAP_FILLET, Bridge.mk 1 1 Quadrant.BL_GAP_FILLET]) := by
  rw [regen_bridges_eq prand gw gh px mode ratio seed hmode hne,
    regen_bridgeMap_eq prand gw gh px mode ratio seed hmode hne]
  refine ⟨?_, ?_, ?_, ?_⟩
  · constructor
    · rintro ⟨htr, hbl, hmap⟩
      have htr2 := ((mem_bridgeScan prand px seed ratio gw gh _).mp htr).2.2
      have hbl2 := ((mem_bridgeScan prand px seed ratio gw gh _).mp hbl).2.2
      exact (mem_cellBridges_tr prand px seed ratio X Y).mp ⟨htr2, hbl2⟩
    · rintro ⟨hpd, hprand⟩
      have hcell := (mem_cellBridges_tr prand px seed ratio X Y).mpr ⟨hpd, hprand⟩
      exact ⟨(mem_bridgeScan prand px seed ratio gw gh _).mpr ⟨hX, hY, hcell.1⟩,
        (mem_bridgeScan prand px seed ratio gw gh _).mpr ⟨hX, hY, hcell.2⟩,
        (mem_bridgeMarkScan prand px seed ratio gw gh (X, Y)).mpr
          ⟨hX, hY, Or.inl ⟨hpd, hprand⟩⟩⟩
  · constructor
    · rintro ⟨hbr, htl, hmap⟩
      have hbr2 := ((mem_bridgeScan prand px seed ratio gw gh _).mp hbr).2.2
      have htl2 := ((mem_bridgeScan prand px seed ratio gw gh _).mp htl).2.2
      exact (mem_cellBridges_br prand px seed ratio X Y).mp ⟨hbr2, htl2⟩
    · rintro ⟨hnd, hprand⟩
      have hcell := (mem_cellBridges_br prand px seed ratio X Y).mpr ⟨hnd, hprand⟩
      exact ⟨(mem_bridgeScan prand px seed ratio gw gh _).mpr ⟨hX, hY, hcell.1⟩,
        (mem_bridgeScan prand px seed ratio gw gh _).mpr ⟨hX, hY, hcell.2⟩,
        (mem_bridgeMarkScan prand px seed ratio gw gh (X, Y)).mpr
          ⟨hX, hY, Or.inr ⟨hnd, hprand⟩⟩⟩
  · intro mode2 px2 gw2 gh2 ratio2 seed2 h
    exact regen_bridges_nil prand gw2 gh2 px2 mode2 ratio2 seed2 h
  · intro hpr gw2 gh2 hgw hgh
    rw [regen_bridges_eq prand gw2 gh2 [(0, 0), (1, 1)] CornerMode.random 1 seed
      (by decide) (by simp)]
    unfold bridgeScan
    rw [intRange_cons 1 gw2 (by omega), List.flatMap_cons,
      intRange_cons 1 gh2 (by omega), List.flatMap_cons,
      cellBridges_diag_one prand seed (hpr 1 1 (seed + 1)).2]
    rw [flatMap_nil_of_forall (intRange (1 + 1) gh2) _ fun Y hY => by
        rw [mem_intRange] at hY
        exact cellBridges_diag_nil prand seed 1 Y (by omega) (by omega) (by omega)]
    rw [flatMap_nil_of_forall (intRange (1 + 1) gw2) _ fun X hX => by
        apply flatMap_nil_of_forall
        intro Y hY
        rw [mem_intRange] at hX
        rw [List.mem_cons] at hY
        have hY1 : 1 ≤ Y := by
          rcases hY with rfl | hY
          · omega
          · rw [mem_intRange] at hY; omega
        exact cellBridges_diag_nil prand seed X Y (by omega) (by omega) hY1]
    simp

/-- C3 witness: the interior point (1, 1) of a 2 x 2 grid holding only the
positive diagonal, with ratio 1 and a pseudo-random function bounded in
[0, 1); both diagonal characterisations and the concrete bridge list are
obtained from the theorem. -/
theorem claim_C3_witness :
    ((Bridge.mk 1 1 Quadrant.TR_GAP_FILLET
        ∈ (regenerateRounding (fun _ _ _ => 1/2) 2 2 [(0, 0), (1, 1)]
            CornerMode.random 1 5).bridges
      ∧ Bridge.mk 1 1 Quadrant.BL_GAP_FILLET
        ∈ (regenerateRounding (fun _ _ _ => 1/2) 2 2 [(0, 0), (1, 1)]
            CornerMode.random 1 5).bridges
      ∧ ((1 : ℤ), (1 : ℤ)) ∈ (regenerateRounding (fun _ _ _ => 1/2) 2 2 [(0, 0), (1, 1)]
            CornerMode.random 1 5).bridgeMap)
      ↔ (posDiagonal [(0, 0), (1, 1)] 1 1 ∧ (1 : ℚ)/2 < 1)) ∧
    (regenerateRounding (fun _ _ _ => (1 : ℚ)/2) 2 2 [(0, 0), (1, 1)]
        CornerMode.random 1 5).bridges
      = [Bridge.mk 1 1 Quadrant.TR_GAP_FILLET, Bridge.mk 1 1 Quadrant.BL_GAP_FILLET] :=
  ⟨(claim_C3 (fun _ _ _ => 1/2) 2 2 [(0, 0), (1, 1)] CornerMode.random 1 5 1 1
      (by decide) (by simp) (by omega) (by omega)).1,
   (claim_C3 (fun _ _ _ => 1/2) 2 2 [(0, 0), (1, 1)] CornerMode.random 1 5 1 1
      (by decide) (by simp) (by omega) (by omega)).2.2.2
      (fun x y s => ⟨by norm_num, by norm_num⟩) 2 2 (by omega) (by omega)⟩

lemma mem_regenRounded (prand : ℤ → ℤ → ℚ → ℚ) (seed ratio : ℚ) (mode : CornerMode)
    (contours : List (List Edge)) (cId i : ℕ) :
    (cId, i) ∈ regenRounded prand seed ratio mode contours ↔
      ∃ ctr, contours.get? cId = some ctr ∧ ∃ e, ctr.get? i = some e ∧
        ¬ ((mode = CornerMode.outer ∧ getCornerType e (nthWrap ctr (i + 1)) ≠ CornerType.convex)
          ∨ (mode = CornerMode.inner ∧ getCornerType e (nthWrap ctr (i + 1)) ≠ CornerType.concave))
        ∧ prand e.x2 e.y2 seed < ratio := by
  unfold regenRounded
  rw [List.mem_flatMap]
  constructor
  · rintro ⟨⟨c, ctr⟩, hmem, hfm⟩
    rw [List.mem_filterMap] at hfm
    obtain ⟨⟨j, e⟩, hje, hf⟩ := hfm
    simp only [] at hf hje hmem
    split_ifs at hf with hskip hlt
    rw [Option.some.injEq, Prod.mk.injEq] at hf
    obtain ⟨hceq, hjeq⟩ := hf
    subst hceq
    subst hjeq
    refine ⟨ctr, ?_, e, ?_, hskip, hlt⟩
    · exact (List.mk_mem_enum_iff_get?).mp hmem
    · exact (List.mk_mem_enum_iff_get?).mp hje
  · rintro ⟨ctr, hc, e, hi, hskip, hlt⟩
    refine ⟨(cId, ctr), (List.mk_mem_enum_iff_get?).mpr hc, ?_⟩
    rw [List.mem_filterMap]
    refine ⟨(i, e), (List.mk_mem_enum_iff_get?).mpr hi, ?_⟩
    simp only []
    rw [if_neg hskip, if_pos hlt]

/-- C4: a contour vertex is effectively rounded by the renderers iff the
corner mode keeps its classification (outer keeps only convex, inner
keeps only concave, random keeps both), the pseudo-random value of its
coordinates and the seed is strictly below the ratio, and the vertex does
not coincide with a bridge lattice point; a vertex at a bridge lattice
point is never rounded regardless of the other conditions. -/
theorem claim_C4 (prand : ℤ → ℤ → ℚ → ℚ) (gw gh : ℤ) (px : List (ℤ × ℤ))
    (mode : CornerMode) (ratio seed : ℚ) (cId i : ℕ)
    (contour : List Edge) (edge : Edge)
    (hc : (findContour gw gh px).get? cId = some contour)
    (hi : contour.get? i = some edge) :
    (shouldRound (regenerateRounding prand gw gh px mode ratio seed).roundedCorners
        (regenerateRounding prand gw gh px mode ratio seed).bridgeMap cId i edge = true
      ↔ ((mode = CornerMode.outer →
            getCornerType edge (nthWrap contour (i + 1)) = CornerType.convex)
        ∧ (mode = CornerMode.inner →
            getCornerType edge (nthWrap contour (i + 1)) = CornerType.concave)
        ∧ prand edge.x2 edge.y2 seed < ratio
        ∧ (edge.x2, edge.y2) ∉ (regenerateRounding prand gw gh px mode ratio seed).bridgeMap))
    ∧ ((edge.x2, edge.y2) ∈ (regenerateRounding prand gw gh px mode ratio seed).bridgeMap →
        shouldRound (regenerateRounding prand gw gh px mode ratio seed).roundedCorners
          (regenerateRounding prand gw gh px mode ratio seed).bridgeMap cId i edge = false) := by
  have hrc : (regenerateRounding prand gw gh px mode ratio seed).roundedCorners
      = regenRounded prand seed ratio mode (findContour gw gh px) := rfl
  have hmem_iff : (cId, i) ∈ regenRounded prand seed ratio mode (findContour gw gh px) ↔
      (¬ ((mode = CornerMode.outer
            ∧ getCornerType edge (nthWrap contour (i + 1)) ≠ CornerType.convex)
          ∨ (mode = CornerMode.inner
            ∧ getCornerType edge (nthWrap contour (i + 1)) ≠ CornerType.concave))
        ∧ prand edge.x2 edge.y2 seed < ratio) := by
    rw [mem_regenRounded]
    constructor
    · rintro ⟨ctr, hc2, e, hi2, h1, h2⟩
      rw [hc] at hc2
      injection hc2 with hceq
      subst hceq
      rw [hi] at hi2
      injection hi2 with hieq
      subst hieq
      exact ⟨h1, h2⟩
    · rintro ⟨h1, h2⟩
      exact ⟨contour, hc, edge, hi, h1, h2⟩
  constructor
  · simp only [shouldRound, Bool.and_eq_true, Bool.not_eq_true', decide_eq_true_iff,
      decide_eq_false_iff_not, hrc, hmem_iff]
    constructor
    · rintro ⟨⟨hskip, hlt⟩, hnb⟩
      refine ⟨?_, ?_, hlt, hnb⟩
      · intro hmo
        by_contra hne2
        exact hskip (Or.inl ⟨hmo, hne2⟩)
      · intro hmi
        by_contra hne2
        exact hskip (Or.inr ⟨hmi, hne2⟩)
    · rintro ⟨h1, h2, hlt, hnb⟩
      refine ⟨⟨?_, hlt⟩, hnb⟩
      rintro (⟨hmo, hne2⟩ | ⟨hmi, hne2⟩)
      · exact hne2 (h1 hmo)
      · exact hne2 (h2 hmi)
  · intro hb
    simp [shouldRound, hb]

/-- C4 witness: the first vertex of the single-cell contour on a 4 x 4 grid
is rounded under mode random, ratio 1 and a constant-zero pseudo-random
function, via the characterisation of the theorem. -/
theorem claim_C4_witness :
    shouldRound
      (regenerateRounding (fun _ _ _ => 0) 4 4 [(0, 0)] CornerMode.random 1 0).roundedCorners
      (regenerateRounding (fun _ _ _ => 0) 4 4 [(0, 0)] CornerMode.random 1 0).bridgeMap
      0 0 ⟨0, 0, 1, 0, Side.top⟩ = true :=
  (claim_C4 (fun _ _ _ => 0) 4 4 [(0, 0)] CornerMode.random 1 0 0 0
      [⟨0, 0, 1, 0, Side.top⟩, ⟨1, 0, 1, 1, Side.right⟩,
        ⟨1, 1, 0, 1, Side.bottom⟩, ⟨0, 1, 0, 0, Side.left⟩]
      ⟨0, 0, 1, 0, Side.top⟩ (by decide) (by decide)).1.mpr
    ⟨fun h => absurd h (by decide), fun h => absurd h (by decide), by decide, by decide⟩

lemma ite_sign_mul (z : ℤ) (m : ℚ) :
    (if z ≠ 0 then (jsSign z : ℚ) * m else 0) = (jsSign z : ℚ) * m := by
  split_ifs with h
  · rfl
  · push_neg at h
    subst h
    norm_num [jsSign]

lemma svgEdge_eq_specEdge (vpw vph roundness : ℚ) (rounded : List (ℕ × ℕ))
    (bm : List (ℤ × ℤ)) (contour : List Edge) (contourId i : ℕ) (edge : Edge) :
    svgEdgeCmds vpw vph (min vpw vph) (roundness * min vpw vph) rounded bm
        contour contourId i edge
      = specEdgeCmds vpw vph roundness rounded bm contour contourId i edge := by
  unfold svgEdgeCmds specEdgeCmds
  have h05 : min vpw vph * (0.5 : ℚ) = min vpw vph / 2 := by
    rw [div_eq_mul_inv]
    norm_num
  simp only [ite_sign_mul, h05]

/-- C6: the path emitted for a non-empty contour starts with a move to the
first edge's start point, then for each edge either a straight segment to
its endpoint or, when that vertex is rounded and the radius is positive,
a segment to the point backed off along the incoming edge's direction by
min(roundness * minCellDimension, minCellDimension / 2) followed by a
quadratic curve through the vertex to the symmetric offset point along
the outgoing edge; the subpath is then closed. -/
theorem claim_C6 (vpw vph roundness : ℚ) (rounded : List (ℕ × ℕ)) (bm : List (ℤ × ℤ))
    (contourId : ℕ) (contour : List Edge) (hne : contour ≠ []) :
    svgContourCmds vpw vph (min vpw vph) (roundness * min vpw vph) rounded bm
        contourId contour
      = specContourPath vpw vph roundness rounded bm contourId contour := by
  obtain ⟨e0, rest, rfl⟩ := List.exists_cons_of_ne_nil hne
  unfold svgContourCmds specContourPath
  dsimp only
  congr 1
  congr 1
  exact congrArg (List.flatMap ((e0 :: rest).enum))
    (funext fun ie =>
      svgEdge_eq_specEdge vpw vph roundness rounded bm (e0 :: rest) contourId ie.1 ie.2)

/-- C6 witness: the single-cell contour rendered with roundness 2/5 on unit
cells equals its specification-shaped path. -/
theorem claim_C6_witness :
    svgContourCmds 1 1 (min 1 1) ((2 : ℚ)/5 * min 1 1) [(0, 0)] []
        0 [⟨0, 0, 1, 0, Side.top⟩, ⟨1, 0, 1, 1, Side.right⟩,
           ⟨1, 1, 0, 1, Side.bottom⟩, ⟨0, 1, 0, 0, Side.left⟩]
      = specContourPath 1 1 ((2 : ℚ)/5) [(0, 0)] []
        0 [⟨0, 0, 1, 0, Side.top⟩, ⟨1, 0, 1, 1, Side.right⟩,
           ⟨1, 1, 0, 1, Side.bottom⟩, ⟨0, 1, 0, 0, Side.left⟩] :=
  claim_C6 1 1 ((2 : ℚ)/5) [(0, 0)] [] 0
    [⟨0, 0, 1, 0, Side.top⟩, ⟨1, 0, 1, 1, Side.right⟩,
     ⟨1, 1, 0, 1, Side.bottom⟩, ⟨0, 1, 0, 0, Side.left⟩] (by decide)

lemma canvasEdge_skeleton_eq (vpw vph minDim r : ℚ) (rounded : List (ℕ × ℕ))
    (bm : List (ℤ × ℤ)) (contour : List Edge) (contourId i : ℕ) (edge : Edge) :
    (canvasEdgeCmds vpw vph minDim r rounded bm contour contourId i edge).map canvasSkeleton
      = (svgEdgeCmds vpw vph minDim r rounded bm contour contourId i edge).map svgSkeleton := by
  unfold canvasEdgeCmds svgEdgeCmds
  dsimp only
  split_ifs <;> rfl

/-- C7 (amended): the canvas path and the SVG path agree on the contour
geometry: for every non-empty contour of the list they emit the same
skeleton of anchor points, the same rounded-vertex decisions and the same
back-off offsets, the canvas arc and the SVG quadratic sharing control
and end points.  The bridge fillets, by contrast, are drawn with
different radii (shown by the counterexample), so the equivalence is
restricted to the contour subpaths. -/
theorem claim_C7 (vpw vph minDim r : ℚ) (rounded : List (ℕ × ℕ)) (bm : List (ℤ × ℤ))
    (contourId : ℕ) (contour : List Edge) (hne : contour ≠ []) :
    (canvasContourCmds vpw vph minDim r rounded bm contourId contour).map canvasSkeleton
      = (svgContourCmds vpw vph minDim r rounded bm contourId contour).map svgSkeleton := by
  obtain ⟨e0, rest, rfl⟩ := List.exists_cons_of_ne_nil hne
  unfold canvasContourCmds svgContourCmds
  dsimp only
  simp only [List.map_append, List.map_cons, List.map_nil, List.singleton_append,
    List.map_flatMap]
  congr 1
  congr 1
  exact congrArg (List.flatMap ((e0 :: rest).enum))
    (funext fun ie =>
      canvasEdge_skeleton_eq vpw vph minDim r rounded bm (e0 :: rest) contourId ie.1 ie.2)

/-- C7 counterexample: the bridge fillet geometry differs between the two
renderers because drawScene draws each bridge at radius r * minDim while
getSVGString emits it at radius r.  With square cells of size 4 and
roundness 1/4 (so r = 1), the canvas fillet radius clamps to 2 while the
SVG fillet radius is 1, and already the starting points of the fillet at
lattice point (1, 1) disagree, even after forgetting the curve kinds. -/
theorem claim_C7_counterexample :
    ((drawBridgeFilletCanvas 4 4 (Bridge.mk 1 1 Quadrant.TR_GAP_FILLET)
        (((1 : ℚ)/4 * min 4 4) * min 4 4)).map canvasSkeleton).head?
      ≠ ((drawBridgeFilletSvg 4 4 (Bridge.mk 1 1 Quadrant.TR_GAP_FILLET)
        ((1 : ℚ)/4 * min 4 4)).map svgSkeleton).head? := by
  have hc : ((1 : ℚ)/4 * min 4 4) * min 4 4 = 4 := by norm_num
  have hs : ((1 : ℚ)/4 * min 4 4) = 1 := by norm_num
  rw [hc, hs]
  unfold drawBridgeFilletCanvas drawBridgeFilletSvg
  have hmin1 : min (4 : ℚ) (min 4 4 * 0.5) = 2 := by norm_num
  have hmin2 : min (1 : ℚ) (min 4 4 * 0.5) = 1 := by norm_num
  dsimp only
  rw [hmin1, hmin2]
  intro h
  simp only [List.map_cons, List.head?_cons, Option.some.injEq, canvasSkeleton,
    svgSkeleton, GeoCmd.move.injEq, Prod.mk.injEq] at h
  have h2 := h.2
  norm_num at h2

/-- C7 witness: the skeletons of the single-cell contour agree between the
canvas renderer and the SVG export. -/
theorem claim_C7_witness :
    (canvasContourCmds 1 1 1 ((2 : ℚ)/5) [(0, 0)] []
        0 [⟨0, 0, 1, 0, Side.top⟩, ⟨1, 0, 1, 1, Side.right⟩,
           ⟨1, 1, 0, 1, Side.bottom⟩, ⟨0, 1, 0, 0, Side.left⟩]).map canvasSkeleton
      = (svgContourCmds 1 1 1 ((2 : ℚ)/5) [(0, 0)] []
        0 [⟨0, 0, 1, 0, Side.top⟩, ⟨1, 0, 1, 1, Side.right⟩,
           ⟨1, 1, 0, 1, Side.bottom⟩, ⟨0, 1, 0, 0, Side.left⟩]).map svgSkeleton :=
  claim_C7 1 1 1 ((2 : ℚ)/5) [(0, 0)] [] 0
    [⟨0, 0, 1, 0, Side.top⟩, ⟨1, 0, 1, 1, Side.right⟩,
     ⟨1, 1, 0, 1, Side.bottom⟩, ⟨0, 1, 0, 0, Side.left⟩] (by decide)

lemma getLastD_of_ne_nil {α : Type} (l : List α) (d₁ d₂ : α) (h : l ≠ []) :
    l.getLastD d₁ = l.getLastD d₂ := by
  rcases List.eq_nil_or_concat l with rfl | ⟨L, b, rfl⟩
  · exact absurd rfl h
  · rw [List.concat_eq_append, List.getLastD_concat, List.getLastD_concat]

lemma dropLast_append_getLastD {α : Type} (l : List α) (d : α) (h : l ≠ []) :
    l.dropLast ++ [l.getLastD d] = l := by
  rcases List.eq_nil_or_concat l with rfl | ⟨L, b, rfl⟩
  · exact absurd rfl h
  · rw [List.concat_eq_append, List.dropLast_concat, List.getLastD_concat]

lemma saveToHistory_push (st : EditorState)
    (hlen : st.history.length + 1 ≤ 50)
    (hns : ∀ last, st.history.getLast? = some last → sameGrid last st.pixels = false) :
    saveToHistory st = ⟨st.pixels, st.history ++ [st.pixels], []⟩ := by
  have hdrop : (st.history ++ [st.pixels]).drop (st.history.length + 1 - 50)
      = st.history ++ [st.pixels] := by
    have h0 : st.history.length + 1 - 50 = 0 := by omega
    rw [h0, List.drop_zero]
  unfold saveToHistory
  cases hh : st.history.getLast? with
  | none =>
      dsimp only
      unfold pushSnapshot
      rw [hdrop]
  | some last =>
      dsimp only
      rw [hns last hh, if_neg (by simp : ¬ ((false : Bool) = true))]
      unfold pushSnapshot
      rw [hdrop]

lemma gridsOf_cons (gw gh : ℤ) (bs : ℕ) (g pts : List (ℤ × ℤ))
    (rest : List (List (ℤ × ℤ))) :
    gridsOf gw gh bs g (pts :: rest)
      = g :: gridsOf gw gh bs (updatePixels gw gh bs Tool.brush pts g) rest := by
  unfold gridsOf
  rw [List.scanl_cons]
  rfl

lemma gridsOf_length (gw gh : ℤ) (bs : ℕ) (g : List (ℤ × ℤ))
    (strokes : List (List (ℤ × ℤ))) :
    (gridsOf gw gh bs g strokes).length = strokes.length + 1 := by
  unfold gridsOf
  exact List.length_scanl g strokes

lemma gridsOf_ne_nil (gw gh : ℤ) (bs : ℕ) (g : List (ℤ × ℤ))
    (strokes : List (List (ℤ × ℤ))) :
    gridsOf gw gh bs g strokes ≠ [] := by
  intro h
  have := gridsOf_length gw gh bs g strokes
  rw [h] at this
  simp at this

lemma gridsOf_headI (gw gh : ℤ) (bs : ℕ) (g : List (ℤ × ℤ))
    (strokes : List (List (ℤ × ℤ))) :
    (gridsOf gw gh bs g strokes).headI = g := by
  cases strokes with
  | nil => rfl
  | cons pts rest => rw [gridsOf_cons]; rfl

lemma runStrokes_spec (gw gh : ℤ) (bs : ℕ) :
    ∀ (strokes : List (List (ℤ × ℤ))) (g : List (ℤ × ℤ)) (h r : List (List (ℤ × ℤ))),
      h.length + strokes.length ≤ 50 →
      (∀ last, h.getLast? = some last → sameGrid last g = false) →
      (gridsOf gw gh bs g strokes).dropLast.Chain' (fun a b => sameGrid a b = false) →
      runStrokes gw gh bs strokes ⟨g, h, r⟩ =
        ⟨(gridsOf gw gh bs g strokes).getLastD g,
         h ++ (gridsOf gw gh bs g strokes).dropLast,
         if strokes = [] then r else []⟩ := by
  intro strokes
  induction strokes with
  | nil =>
      intro g h r hlen hns hch
      unfold runStrokes gridsOf
      simp [List.scanl]
  | cons pts rest ih =>
      intro g h r hlen hns hch
      have hlist : (pts :: rest).length = rest.length + 1 := rfl
      have hsave : saveToHistory ⟨g, h, r⟩ = ⟨g, h ++ [g], []⟩ :=
        saveToHistory_push ⟨g, h, r⟩ (by simp only []; omega) hns
      have hstep : runStrokes gw gh bs (pts :: rest) ⟨g, h, r⟩
          = runStrokes gw gh bs rest
              ⟨updatePixels gw gh bs Tool.brush pts g, h ++ [g], []⟩ := by
        unfold runStrokes
        rw [List.foldl_cons]
        congr 1
        unfold paintStroke
        rw [hsave]
      rw [hstep]
      rw [gridsOf_cons] at hch ⊢
      cases rest with
      | nil =>
          unfold runStrokes
          rw [List.foldl_nil]
          have hgs : gridsOf gw gh bs (updatePixels gw gh bs Tool.brush pts g) [] =
              [updatePixels gw gh bs Tool.brush pts g] := rfl
          rw [hgs]
          simp
      | cons pts2 rest2 =>
          obtain ⟨g2, gtail, hg2⟩ :=
            List.exists_cons_of_ne_nil (gridsOf_ne_nil gw gh bs
              (updatePixels gw gh bs Tool.brush
                pts2 (updatePixels gw gh bs Tool.brush pts g)) rest2)
          rw [gridsOf_cons, hg2] at hch ⊢
          rw [List.dropLast_cons₂, List.dropLast_cons₂, List.chain'_cons] at hch
          have hrest := ih (updatePixels gw gh bs Tool.brush pts g) (h ++ [g]) []
            (by simp only [List.length_append, List.length_singleton]; omega)
            (by
              intro last hl
              rw [List.getLast?_concat, Option.some.injEq] at hl
              subst hl
              exact hch.1)
            (by
              rw [gridsOf_cons, hg2, List.dropLast_cons₂]
              exact hch.2)
          rw [gridsOf_cons, hg2] at hrest
          rw [hrest]
          simp [List.getLastD_cons, List.dropLast_cons₂, List.append_assoc]
          rw [← List.getLastD_eq_getLast?, ← List.getLastD_eq_getLast?]
          exact getLastD_of_ne_nil (g2 :: gtail) _ _ (by simp)

lemma undoN_spec :
    ∀ (h : List (List (ℤ × ℤ))) (q : List (ℤ × ℤ)) (r : List (List (ℤ × ℤ))),
      undoN h.length ⟨q, h, r⟩ = ⟨(h ++ [q]).headI, [], (h ++ [q]).tail ++ r⟩ := by
  intro h
  induction h using List.reverseRecOn with
  | nil =>
      intro q r
      simp [undoN, List.headI]
  | append_singleton h2 x ih =>
      intro q r
      have hlen : (h2 ++ [x]).length = h2.length + 1 := by simp
      rw [hlen]
      show undoN h2.length (handleUndo ⟨q, h2 ++ [x], r⟩) = _
      have hu : handleUndo ⟨q, h2 ++ [x], r⟩ = ⟨x, h2, q :: r⟩ := by
        unfold handleUndo
        rw [List.getLast?_concat]
        dsimp only
        rw [List.dropLast_concat]
      rw [hu, ih x (q :: r)]
      cases h2 <;> simp

lemma redoN_spec :
    ∀ (r : List (List (ℤ × ℤ))) (q : List (ℤ × ℤ)) (h : List (List (ℤ × ℤ))),
      redoN r.length ⟨q, h, r⟩ = ⟨r.getLastD q, h ++ (q :: r).dropLast, []⟩ := by
  intro r
  induction r with
  | nil =>
      intro q h
      simp [redoN]
  | cons n r2 ih =>
      intro q h
      show redoN r2.length (handleRedo ⟨q, h, n :: r2⟩) = _
      have hr : handleRedo ⟨q, h, n :: r2⟩ = ⟨n, h ++ [q], r2⟩ := rfl
      rw [hr, ih n (h ++ [q])]
      rw [List.getLastD_cons, List.dropLast_cons₂]
      simp [List.append_assoc]

/-- C8 (amended): starting from an empty grid with empty history and redo
stacks, a sequence of at most 50 paint strokes in which every stroke
changes the grid, followed by as many undos, restores the empty grid, and
as many redos afterwards restore the final painted grid.  For more than
50 strokes the 50-snapshot cap makes the restoration fail, as the
counterexample shows. -/
theorem claim_C8 (gw gh : ℤ) (brushSize : ℕ) (strokes : List (List (ℤ × ℤ)))
    (hn : 1 ≤ strokes.length) (hcap : strokes.length ≤ 50)
    (heff : (gridsOf gw gh brushSize [] strokes).dropLast.Chain'
      (fun a b => sameGrid a b = false)) :
    (undoN strokes.length (runStrokes gw gh brushSize strokes ⟨[], [], []⟩)).pixels = []
    ∧ (redoN strokes.length (undoN strokes.length
        (runStrokes gw gh brushSize strokes ⟨[], [], []⟩))).pixels
      = (runStrokes gw gh brushSize strokes ⟨[], [], []⟩).pixels := by
  have hne : strokes ≠ [] := by
    intro h
    rw [h] at hn
    simp at hn
  have hrun := runStrokes_spec gw gh brushSize strokes [] [] []
    (by simpa using hcap)
    (by intro last hl; simp at hl)
    heff
  rw [if_neg hne] at hrun
  simp only [List.nil_append] at hrun
  have hlen : (gridsOf gw gh brushSize [] strokes).length = strokes.length + 1 :=
    gridsOf_length gw gh brushSize [] strokes
  have hdl_len : (gridsOf gw gh brushSize [] strokes).dropLast.length = strokes.length := by
    rw [List.length_dropLast, hlen]
    omega
  have hgne : gridsOf gw gh brushSize [] strokes ≠ [] :=
    gridsOf_ne_nil gw gh brushSize [] strokes
  have hrecomb : (gridsOf gw gh brushSize [] strokes).dropLast
      ++ [(gridsOf gw gh brushSize [] strokes).getLastD []]
      = gridsOf gw gh brushSize [] strokes :=
    dropLast_append_getLastD (gridsOf gw gh brushSize [] strokes) [] hgne
  have hu := undoN_spec (gridsOf gw gh brushSize [] strokes).dropLast
    ((gridsOf gw gh brushSize [] strokes).getLastD []) []
  rw [hdl_len, hrecomb] at hu
  simp only [List.append_nil] at hu
  have hundo : undoN strokes.length (runStrokes gw gh brushSize strokes ⟨[], [], []⟩)
      = ⟨(gridsOf gw gh brushSize [] strokes).headI, [],
         (gridsOf gw gh brushSize [] strokes).tail⟩ := by
    rw [hrun, hu]
  have hhead : (gridsOf gw gh brushSize [] strokes).headI = [] :=
    gridsOf_headI gw gh brushSize [] strokes
  constructor
  · rw [hundo, hhead]
  · obtain ⟨g0, gt, hg0⟩ := List.exists_cons_of_ne_nil hgne
    have htail_len : (gridsOf gw gh brushSize [] strokes).tail.length = strokes.length := by
      rw [hg0]
      rw [hg0] at hlen
      simp at hlen
      simp [hlen]
    have hr := redoN_spec (gridsOf gw gh brushSize [] strokes).tail
      ((gridsOf gw gh brushSize [] strokes).headI) []
    rw [htail_len] at hr
    rw [hundo, hr, hrun]
    rw [hg0]
    simp only [List.headI_cons, List.tail_cons]
    rw [List.getLastD_cons]

set_option maxRecDepth 40000 in
/-- C8 counterexample: with 51 effective strokes the 50-snapshot cap evicts
the snapshot of the initial empty grid, so 51 undos do not restore it:
painting cells (0,0) through (50,0) one per stroke on a 60 x 1 grid and
undoing 51 times leaves a non-empty grid. -/
theorem claim_C8_counterexample :
    (undoN 51 (runStrokes 60 1 1
        ((List.range 51).map fun (i : ℕ) => [((i : ℤ), 0)]) ⟨[], [], []⟩)).pixels ≠ [] := by
  decide

/-- C8 witness: one effective stroke followed by one undo restores the empty
grid and one redo restores the painted grid. -/
theorem claim_C8_witness :
    (undoN 1 (runStrokes 4 4 1 [[(0, 0)]] ⟨[], [], []⟩)).pixels = []
    ∧ (redoN 1 (undoN 1 (runStrokes 4 4 1 [[(0, 0)]] ⟨[], [], []⟩))).pixels
      = (runStrokes 4 4 1 [[(0, 0)]] ⟨[], [], []⟩).pixels :=
  claim_C8 4 4 1 [[(0, 0)]] (by decide) (by decide)
    (by
      rw [(by decide : (gridsOf 4 4 1 [] [[(0, 0)]]).dropLast = [[]])]
      exact List.chain'_singleton [])

/-- C2 witness: both determinism statements instantiated at concrete inputs. -/
theorem claim_C2_witness :
    pseudoRandom 1 2 3 = pseudoRandom 1 2 3 ∧
    regenerateRounding (fun _ _ _ => 0) 2 2 [(0, 0)] CornerMode.random 1 5 =
      regenerateRounding (fun _ _ _ => 0) 2 2 [(0, 0)] CornerMode.random 1 5 :=
  ⟨claim_C2.1 1 2 3 1 2 3 rfl rfl rfl,
   claim_C2.2 (fun _ _ _ => 0) (fun _ _ _ => 0) 2 2 2 2 [(0, 0)] [(0, 0)]
     CornerMode.random CornerMode.random 1 1 5 5 rfl rfl rfl rfl rfl rfl rfl⟩

lemma chi_eq_one {p : Prop} [Decidable p] (h : p) : chi p = 1 := if_pos h

lemma chi_eq_zero {p : Prop} [Decidable p] (h : ¬ p) : chi p = 0 := if_neg h

lemma netFlow_nil (v : ℤ × ℤ) : netFlow v [] = 0 := rfl

lemma netFlow_append (v : ℤ × ℤ) (l₁ l₂ : List Edge) :
    netFlow v (l₁ ++ l₂) = netFlow v l₁ + netFlow v l₂ := by
  unfold netFlow inCount outCount
  rw [List.countP_append, List.countP_append]
  push_cast
  ring

lemma inCount_cons (v : ℤ × ℤ) (e : Edge) (l : List Edge) :
    (inCount v (e :: l) : ℤ) = (inCount v l : ℤ) + chi (edgeEnd e = v) := by
  unfold inCount chi
  rw [List.countP_cons]
  by_cases h : edgeEnd e = v <;> simp [h]

lemma outCount_cons (v : ℤ × ℤ) (e : Edge) (l : List Edge) :
    (outCount v (e :: l) : ℤ) = (outCount v l : ℤ) + chi (edgeStart e = v) := by
  unfold outCount chi
  rw [List.countP_cons]
  by_cases h : edgeStart e = v <;> simp [h]

lemma netFlow_singleton (v : ℤ × ℤ) (e : Edge) :
    netFlow v [e] = chi (edgeEnd e = v) - chi (edgeStart e = v) := by
  unfold netFlow inCount outCount chi
  by_cases h1 : edgeEnd e = v <;> by_cases h2 : edgeStart e = v <;>
    simp [List.countP_cons, h1, h2]

lemma netFlow_ite (b : Bool) (v : ℤ × ℤ) (e : Edge) :
    netFlow v (if b then [] else [e])
      = if b then 0 else chi (edgeEnd e = v) - chi (edgeStart e = v) := by
  cases b <;> simp [netFlow_singleton, netFlow_nil]

lemma netFlow_flatMap (v : ℤ × ℤ) (f : ℤ × ℤ → List Edge) (cells : List (ℤ × ℤ)) :
    netFlow v (cells.flatMap f) = (cells.map fun q => netFlow v (f q)).sum := by
  induction cells with
  | nil => simp [netFlow_nil]
  | cons q t ih =>
      rw [List.flatMap_cons, netFlow_append, List.map_cons, List.sum_cons, ih]

lemma countP_eq_single (s : ℤ × ℤ) :
    ∀ l : List (ℤ × ℤ), l.Nodup →
      (l.countP fun q => decide (q = s)) = if s ∈ l then 1 else 0 := by
  intro l
  induction l with
  | nil => intro _; simp
  | cons a t ih =>
      intro hnd
      rw [List.nodup_cons] at hnd
      rw [List.countP_cons, ih hnd.2]
      by_cases h : a = s
      · subst h
        rw [if_neg hnd.1, if_pos (List.mem_cons_self a t)]
        simp
      · simp only [List.mem_cons]
        have hsa : ¬ (s = a) := fun hh => h hh.symm
        by_cases hm : s ∈ t
        · simp [h, hm]
        · simp [h, hsa, hm]

lemma countP_chi (px : List (ℤ × ℤ)) (hnd : px.Nodup) (a b : ℤ) :
    ((px.countP fun q => decide (q = (a, b))) : ℤ) = cond (hasPixel px a b) 1 0 := by
  rw [countP_eq_single (a, b) px hnd]
  by_cases h : (a, b) ∈ px
  · rw [if_pos h, (hasPixel_iff px a b).mpr h]
    simp
  · rw [if_neg h]
    have hf : hasPixel px a b = false := by
      rw [← Bool.not_eq_true, hasPixel_iff]
      exact h
    rw [hf]
    simp

lemma sum_support4 (F : ℤ × ℤ → ℤ) (s₁ s₂ s₃ s₄ : ℤ × ℤ)
    (d12 : s₁ ≠ s₂) (d13 : s₁ ≠ s₃) (d14 : s₁ ≠ s₄)
    (d23 : s₂ ≠ s₃) (d24 : s₂ ≠ s₄) (d34 : s₃ ≠ s₄)
    (hF : ∀ q, q ≠ s₁ → q ≠ s₂ → q ≠ s₃ → q ≠ s₄ → F q = 0)
    (l : List (ℤ × ℤ)) :
    (l.map F).sum =
      ((l.countP fun q => decide (q = s₁)) : ℤ) * F s₁
        + ((l.countP fun q => decide (q = s₂)) : ℤ) * F s₂
        + ((l.countP fun q => decide (q = s₃)) : ℤ) * F s₃
        + ((l.countP fun q => decide (q = s₄)) : ℤ) * F s₄ := by
  induction l with
  | nil => simp
  | cons q t ih =>
      rw [List.map_cons, List.sum_cons, ih,
        List.countP_cons, List.countP_cons, List.countP_cons, List.countP_cons]
      push_cast
      by_cases e1 : q = s₁
      · subst e1
        rw [if_pos (by simp), if_neg (by simp [d12]), if_neg (by simp [d13]),
          if_neg (by simp [d14])]
        ring
      · by_cases e2 : q = s₂
        · subst e2
          rw [if_neg (by simp [Ne.symm d12]), if_pos (by simp),
            if_neg (by simp [d23]), if_neg (by simp [d24])]
          ring
        · by_cases e3 : q = s₃
          · subst e3
            rw [if_neg (by simp [Ne.symm d13]), if_neg (by simp [Ne.symm d23]),
              if_pos (by simp), if_neg (by simp [d34])]
            ring
          · by_cases e4 : q = s₄
            · subst e4
              rw [if_neg (by simp [Ne.symm d14]), if_neg (by simp [Ne.symm d24]),
                if_neg (by simp [Ne.symm d34]), if_pos (by simp)]
              ring
            · rw [if_neg (by simp [e1]), if_neg (by simp [e2]), if_neg (by simp [e3]),
                if_neg (by simp [e4]), hF q e1 e2 e3 e4]
              ring

lemma netFlow_cellEdges_eval (px : List (ℤ × ℤ)) (x y : ℤ) (v : ℤ × ℤ) :
    netFlow v (cellEdges px x y)
      = (if hasPixel px x (y - 1) then 0
          else chi (((x + 1, y) : ℤ × ℤ) = v) - chi (((x, y) : ℤ × ℤ) = v))
        + ((if hasPixel px (x + 1) y then 0
          else chi (((x + 1, y + 1) : ℤ × ℤ) = v) - chi (((x + 1, y) : ℤ × ℤ) = v))
        + ((if hasPixel px x (y + 1) then 0
          else chi (((x, y + 1) : ℤ × ℤ) = v) - chi (((x + 1, y + 1) : ℤ × ℤ) = v))
        + (if hasPixel px (x - 1) y then 0
          else chi (((x, y) : ℤ × ℤ) = v) - chi (((x, y + 1) : ℤ × ℤ) = v)))) := by
  unfold cellEdges
  rw [netFlow_append, netFlow_append, netFlow_append,
    netFlow_ite, netFlow_ite, netFlow_ite, netFlow_ite]
  simp only [edgeStart, edgeEnd]
  ring

lemma netFlow_tl (px : List (ℤ × ℤ)) (X Y : ℤ) :
    netFlow (X, Y) (cellEdges px (X - 1) (Y - 1))
      = cond (hasPixel px X (Y - 1)) 0 1 + cond (hasPixel px (X - 1) Y) 0 (-1) := by
  rw [netFlow_cellEdges_eval]
  have e1 : X - 1 + 1 = X := by ring
  have e2 : Y - 1 + 1 = Y := by ring
  rw [e1, e2]
  rw [chi_eq_one (show ((X, Y) : ℤ × ℤ) = (X, Y) from rfl),
    chi_eq_zero (show ¬ (((X, Y - 1) : ℤ × ℤ) = (X, Y)) from
      fun hc => by rw [Prod.mk.injEq] at hc; omega),
    chi_eq_zero (show ¬ (((X - 1, Y - 1) : ℤ × ℤ) = (X, Y)) from
      fun hc => by rw [Prod.mk.injEq] at hc; omega),
    chi_eq_zero (show ¬ (((X - 1, Y) : ℤ × ℤ) = (X, Y)) from
      fun hc => by rw [Prod.mk.injEq] at hc; omega)]
  simp [Bool.cond_eq_ite]

lemma netFlow_tr (px : List (ℤ × ℤ)) (X Y : ℤ) :
    netFlow (X, Y) (cellEdges px X (Y - 1))
      = cond (hasPixel px X Y) 0 1 + cond (hasPixel px (X - 1) (Y - 1)) 0 (-1) := by
  rw [netFlow_cellEdges_eval]
  have e2 : Y - 1 + 1 = Y := by ring
  rw [e2]
  rw [chi_eq_one (show ((X, Y) : ℤ × ℤ) = (X, Y) from rfl),
    chi_eq_zero (show ¬ (((X + 1, Y - 1) : ℤ × ℤ) = (X, Y)) from
      fun hc => by rw [Prod.mk.injEq] at hc; omega),
    chi_eq_zero (show ¬ (((X, Y - 1) : ℤ × ℤ) = (X, Y)) from
      fun hc => by rw [Prod.mk.injEq] at hc; omega),
    chi_eq_zero (show ¬ (((X + 1, Y) : ℤ × ℤ) = (X, Y)) from
      fun hc => by rw [Prod.mk.injEq] at hc; omega)]
  simp [Bool.cond_eq_ite]

lemma netFlow_bl (px : List (ℤ × ℤ)) (X Y : ℤ) :
    netFlow (X, Y) (cellEdges px (X - 1) Y)
      = cond (hasPixel px (X - 1) (Y - 1)) 0 1 + cond (hasPixel px X Y) 0 (-1) := by
  rw [netFlow_cellEdges_eval]
  have e1 : X - 1 + 1 = X := by ring
  rw [e1]
  rw [chi_eq_one (show ((X, Y) : ℤ × ℤ) = (X, Y) from rfl),
    chi_eq_zero (show ¬ (((X - 1, Y) : ℤ × ℤ) = (X, Y)) from
      fun hc => by rw [Prod.mk.injEq] at hc; omega),
    chi_eq_zero (show ¬ (((X, Y + 1) : ℤ × ℤ) = (X, Y)) from
      fun hc => by rw [Prod.mk.injEq] at hc; omega),
    chi_eq_zero (show ¬ (((X - 1, Y + 1) : ℤ × ℤ) = (X, Y)) from
      fun hc => by rw [Prod.mk.injEq] at hc; omega)]
  simp [Bool.cond_eq_ite]

lemma netFlow_br (px : List (ℤ × ℤ)) (X Y : ℤ) :
    netFlow (X, Y) (cellEdges px X Y)
      = cond (hasPixel px X (Y - 1)) 0 (-1) + cond (hasPixel px (X - 1) Y) 0 1 := by
  rw [netFlow_cellEdges_eval]
  rw [chi_eq_one (show ((X, Y) : ℤ × ℤ) = (X, Y) from rfl),
    chi_eq_zero (show ¬ (((X + 1, Y) : ℤ × ℤ) = (X, Y)) from
      fun hc => by rw [Prod.mk.injEq] at hc; omega),
    chi_eq_zero (show ¬ (((X + 1, Y + 1) : ℤ × ℤ) = (X, Y)) from
      fun hc => by rw [Prod.mk.injEq] at hc; omega),
    chi_eq_zero (show ¬ (((X, Y + 1) : ℤ × ℤ) = (X, Y)) from
      fun hc => by rw [Prod.mk.injEq] at hc; omega)]
  simp [Bool.cond_eq_ite]

lemma netFlow_far (px : List (ℤ × ℤ)) (X Y a b : ℤ)
    (h1 : ((a, b) : ℤ × ℤ) ≠ (X - 1, Y - 1)) (h2 : ((a, b) : ℤ × ℤ) ≠ (X, Y - 1))
    (h3 : ((a, b) : ℤ × ℤ) ≠ (X - 1, Y)) (h4 : ((a, b) : ℤ × ℤ) ≠ (X, Y)) :
    netFlow (X, Y) (cellEdges px a b) = 0 := by
  rw [netFlow_cellEdges_eval]
  rw [chi_eq_zero (show ¬ (((a, b) : ℤ × ℤ) = (X, Y)) from h4),
    chi_eq_zero (show ¬ (((a + 1, b) : ℤ × ℤ) = (X, Y)) from
      fun hc => h3 (by rw [Prod.mk.injEq] at hc ⊢; omega)),
    chi_eq_zero (show ¬ (((a, b + 1) : ℤ × ℤ) = (X, Y)) from
      fun hc => h2 (by rw [Prod.mk.injEq] at hc ⊢; omega)),
    chi_eq_zero (show ¬ (((a + 1, b + 1) : ℤ × ℤ) = (X, Y)) from
      fun hc => h1 (by rw [Prod.mk.injEq] at hc ⊢; omega))]
  simp

lemma balance_local (mtl mtr mbl mbr : Bool) (ftl ftr fbl fbr : ℤ)
    (htl : mtl = true → ftl = cond mtr 0 1 + cond mbl 0 (-1))
    (htr : mtr = true → ftr = cond mbr 0 1 + cond mtl 0 (-1))
    (hbl : mbl = true → fbl = cond mtl 0 1 + cond mbr 0 (-1))
    (hbr : mbr = true → fbr = cond mtr 0 (-1) + cond mbl 0 1) :
    cond mtl 1 0 * ftl + cond mtr 1 0 * ftr
      + cond mbl 1 0 * fbl + cond mbr 1 0 * fbr = 0 := by
  cases mtl <;> cases mtr <;> cases mbl <;> cases mbr <;> simp_all

theorem genEdges_balanced (gw gh : ℤ) (px : List (ℤ × ℤ)) (hnd : px.Nodup)
    (hbnd : ∀ q ∈ px, ¬ (gw ≤ q.1 ∨ gh ≤ q.2 ∨ q.1 < 0 ∨ q.2 < 0)) (X Y : ℤ) :
    netFlow (X, Y) (genEdges gw gh px) = 0 := by
  unfold genEdges
  rw [netFlow_flatMap]
  rw [sum_support4 _ (X - 1, Y - 1) (X, Y - 1) (X - 1, Y) (X, Y)
    (fun hc => by rw [Prod.mk.injEq] at hc; omega)
    (fun hc => by rw [Prod.mk.injEq] at hc; omega)
    (fun hc => by rw [Prod.mk.injEq] at hc; omega)
    (fun hc => by rw [Prod.mk.injEq] at hc; omega)
    (fun hc => by rw [Prod.mk.injEq] at hc; omega)
    (fun hc => by rw [Prod.mk.injEq] at hc; omega)
    (by
      intro q hq1 hq2 hq3 hq4
      obtain ⟨a, b⟩ := q
      show netFlow (X, Y)
        (if gw ≤ a ∨ gh ≤ b ∨ a < 0 ∨ b < 0 then [] else cellEdges px a b) = 0
      split_ifs with hoob
      · exact netFlow_nil _
      · exact netFlow_far px X Y a b hq1 hq2 hq3 hq4)
    px]
  rw [countP_chi px hnd (X - 1) (Y - 1), countP_chi px hnd X (Y - 1),
    countP_chi px hnd (X - 1) Y, countP_chi px hnd X Y]
  refine balance_local _ _ _ _ _ _ _ _ ?_ ?_ ?_ ?_
  · intro hm
    have hmem : (X - 1, Y - 1) ∈ px := (hasPixel_iff px (X - 1) (Y - 1)).mp hm
    show netFlow (X, Y)
      (if gw ≤ X - 1 ∨ gh ≤ Y - 1 ∨ X - 1 < 0 ∨ Y - 1 < 0 then []
       else cellEdges px (X - 1) (Y - 1)) = _
    rw [if_neg (hbnd _ hmem)]
    exact netFlow_tl px X Y
  · intro hm
    have hmem : (X, Y - 1) ∈ px := (hasPixel_iff px X (Y - 1)).mp hm
    show netFlow (X, Y)
      (if gw ≤ X ∨ gh ≤ Y - 1 ∨ X < 0 ∨ Y - 1 < 0 then []
       else cellEdges px X (Y - 1)) = _
    rw [if_neg (hbnd _ hmem)]
    exact netFlow_tr px X Y
  · intro hm
    have hmem : (X - 1, Y) ∈ px := (hasPixel_iff px (X - 1) Y).mp hm
    show netFlow (X, Y)
      (if gw ≤ X - 1 ∨ gh ≤ Y ∨ X - 1 < 0 ∨ Y < 0 then []
       else cellEdges px (X - 1) Y) = _
    rw [if_neg (hbnd _ hmem)]
    exact netFlow_bl px X Y
  · intro hm
    have hmem : (X, Y) ∈ px := (hasPixel_iff px X Y).mp hm
    show netFlow (X, Y)
      (if gw ≤ X ∨ gh ≤ Y ∨ X < 0 ∨ Y < 0 then []
       else cellEdges px X Y) = _
    rw [if_neg (hbnd _ hmem)]
    exact netFlow_br px X Y

lemma extractNext_none (pt : ℤ × ℤ) :
    ∀ l : List Edge, extractNext pt l = none → ∀ e ∈ l, edgeStart e ≠ pt := by
  intro l
  induction l with
  | nil =>
      intro _ e he
      cases he
  | cons f t ih =>
      intro hx e he
      unfold extractNext at hx
      split_ifs at hx with hs
      · rcases List.mem_cons.mp he with rfl | ht
        · exact hs
        · split at hx
          · rename_i hnone
            exact ih hnone e ht
          · cases hx

lemma extractNext_some (pt : ℤ × ℤ) :
    ∀ (l : List Edge) (e : Edge) (r : List Edge),
      extractNext pt l = some (e, r) → edgeStart e = pt ∧ l.Perm (e :: r) := by
  intro l
  induction l with
  | nil =>
      intro e r h
      cases h
  | cons f t ih =>
      intro e r h
      unfold extractNext at h
      split_ifs at h with hs
      · rw [Option.some.injEq, Prod.mk.injEq] at h
        obtain ⟨h1, h2⟩ := h
        subst h1
        subst h2
        exact ⟨hs, List.Perm.refl _⟩
      · split at h
        · cases h
        · rename_i g r2 hm
          rw [Option.some.injEq, Prod.mk.injEq] at h
          obtain ⟨h1, h2⟩ := h
          subst h1
          subst h2
          obtain ⟨hg, hperm⟩ := ih g r2 hm
          exact ⟨hg, (hperm.cons f).trans (List.Perm.swap g f r2)⟩

lemma linkedChain_append (d e : Edge) :
    ∀ l : List Edge, l ≠ [] →
      linkedChain (l ++ [e])
        = (linkedChain l && decide (edgeEnd (l.getLastD d) = edgeStart e)) := by
  intro l
  induction l with
  | nil =>
      intro h
      exact absurd rfl h
  | cons f t ih =>
      intro _
      cases t with
      | nil => simp [linkedChain]
      | cons g t2 =>
          have hl : (f :: g :: t2).getLastD d = (g :: t2).getLastD d := by
            rw [List.getLastD_cons]
            exact getLastD_of_ne_nil _ f d (by simp)
          rw [hl]
          show (decide (edgeEnd f = edgeStart g) && linkedChain ((g :: t2) ++ [e]))
            = ((decide (edgeEnd f = edgeStart g) && linkedChain (g :: t2))
                && decide (edgeEnd ((g :: t2).getLastD d) = edgeStart e))
          rw [ih (by simp), Bool.and_assoc]

lemma closedLoop_of_head (contour : List Edge) (first : Edge)
    (hhead : contour.head? = some first)
    (hcl : edgeEnd (contour.getLastD first) = edgeStart first) :
    closedLoop contour = true := by
  cases contour with
  | nil => cases hhead
  | cons c t =>
      rw [List.head?_cons, Option.some.injEq] at hhead
      subst hhead
      rw [List.getLastD_cons] at hcl
      unfold closedLoop
      exact decide_eq_true hcl

lemma traceFrom_succ (first : Edge) (n : ℕ) (pt : ℤ × ℤ) (remaining contour : List Edge) :
    traceFrom first (n + 1) pt remaining contour
      = match extractNext pt remaining with
        | none => (contour, remaining)
        | some (e, rest) =>
          if edgeEnd e = edgeStart first then (contour ++ [e], rest)
          else traceFrom first n (edgeEnd e) rest (contour ++ [e]) := rfl

lemma traceFrom_perm (first : Edge) :
    ∀ (fuel : ℕ) (pt : ℤ × ℤ) (remaining contour : List Edge),
      ((traceFrom first fuel pt remaining contour).1
        ++ (traceFrom first fuel pt remaining contour).2).Perm (contour ++ remaining) := by
  intro fuel
  induction fuel with
  | zero =>
      intro pt remaining contour
      exact List.Perm.refl _
  | succ n ih =>
      intro pt remaining contour
      cases hx : extractNext pt remaining with
      | none =>
          have hred : traceFrom first (n + 1) pt remaining contour = (contour, remaining) := by
            rw [traceFrom_succ, hx]
          rw [hred]
      | some pr =>
          obtain ⟨e, rest⟩ := pr
          obtain ⟨hst, hperm⟩ := extractNext_some pt remaining e rest hx
          have hperm2 : (contour ++ remaining).Perm ((contour ++ [e]) ++ rest) := by
            rw [List.append_assoc]
            exact List.Perm.append_left contour hperm
          by_cases hcl : edgeEnd e = edgeStart first
          · have hred : traceFrom first (n + 1) pt remaining contour
                = (contour ++ [e], rest) := by
              rw [traceFrom_succ, hx]
              exact if_pos hcl
            rw [hred]
            exact hperm2.symm
          · have hred : traceFrom first (n + 1) pt remaining contour
                = traceFrom first n (edgeEnd e) rest (contour ++ [e]) := by
              rw [traceFrom_succ, hx]
              exact if_neg hcl
            rw [hred]
            exact (ih (edgeEnd e) rest (contour ++ [e])).trans hperm2.symm

lemma traceFrom_spec (first : Edge) :
    ∀ (fuel : ℕ) (pt : ℤ × ℤ) (remaining contour : List Edge),
      remaining.length ≤ fuel →
      contour ≠ [] →
      contour.head? = some first →
      linkedChain contour = true →
      edgeEnd (contour.getLastD first) = pt →
      (∀ v : ℤ × ℤ, (inCount v remaining : ℤ) - (outCount v remaining : ℤ)
        = chi (edgeStart first = v) - chi (pt = v)) →
      (traceFrom first fuel pt remaining contour).1 ≠ []
      ∧ (traceFrom first fuel pt remaining contour).1.head? = some first
      ∧ linkedChain (traceFrom first fuel pt remaining contour).1 = true
      ∧ closedLoop (traceFrom first fuel pt remaining contour).1 = true
      ∧ (∀ v : ℤ × ℤ, (inCount v (traceFrom first fuel pt remaining contour).2 : ℤ)
          = (outCount v (traceFrom first fuel pt remaining contour).2 : ℤ)) := by
  intro fuel
  induction fuel with
  | zero =>
      intro pt remaining contour hfuel hne hhead hlink hlast hnet
      have hrem : remaining = [] := List.length_eq_zero.mp (Nat.le_zero.mp hfuel)
      subst hrem
      have hsp : edgeStart first = pt := by
        have h0 := hnet pt
        rw [chi_eq_one (Eq.refl pt)] at h0
        by_cases hq : edgeStart first = pt
        · exact hq
        · exfalso
          rw [chi_eq_zero hq] at h0
          simp [inCount, outCount] at h0
      refine ⟨hne, hhead, hlink, ?_, ?_⟩
      · exact closedLoop_of_head contour first hhead (by rw [hlast]; exact hsp.symm)
      · intro v
        rfl
  | succ n ih =>
      intro pt remaining contour hfuel hne hhead hlink hlast hnet
      cases hx : extractNext pt remaining with
      | none =>
          have hred : traceFrom first (n + 1) pt remaining contour = (contour, remaining) := by
            rw [traceFrom_succ, hx]
          have hout : outCount pt remaining = 0 :=
            List.countP_eq_zero.mpr (fun a ha => by
              simp only [decide_eq_true_eq]
              exact extractNext_none pt remaining hx a ha)
          have hsp : edgeStart first = pt := by
            have h0 := hnet pt
            rw [hout, chi_eq_one (Eq.refl pt)] at h0
            by_cases hq : edgeStart first = pt
            · exact hq
            · exfalso
              rw [chi_eq_zero hq] at h0
              omega
          rw [hred]
          refine ⟨hne, hhead, hlink, ?_, ?_⟩
          · exact closedLoop_of_head contour first hhead (by rw [hlast]; exact hsp.symm)
          · intro v
            show (inCount v remaining : ℤ) = (outCount v remaining : ℤ)
            have h0 := hnet v
            rw [hsp, sub_self] at h0
            omega
      | some pr =>
          obtain ⟨e, rest⟩ := pr
          obtain ⟨hst, hperm⟩ := extractNext_some pt remaining e rest hx
          have hrest : ∀ v : ℤ × ℤ, (inCount v rest : ℤ) - (outCount v rest : ℤ)
              = chi (edgeStart first = v) - chi (edgeEnd e = v) := by
            intro v
            have hp1 : inCount v remaining = inCount v (e :: rest) := by
              unfold inCount
              exact List.Perm.countP_eq _ hperm
            have hp2 : outCount v remaining = outCount v (e :: rest) := by
              unfold outCount
              exact List.Perm.countP_eq _ hperm
            have h0 := hnet v
            rw [hp1, hp2, inCount_cons, outCount_cons, hst] at h0
            linear_combination h0
          have hheadNew : (contour ++ [e]).head? = some first := by
            rw [List.head?_append, hhead]
            rfl
          have hlinkNew : linkedChain (contour ++ [e]) = true := by
            rw [linkedChain_append first e contour hne, hlink, hlast, hst]
            simp
          by_cases hcl : edgeEnd e = edgeStart first
          · have hred : traceFrom first (n + 1) pt remaining contour
                = (contour ++ [e], rest) := by
              rw [traceFrom_succ, hx]
              exact if_pos hcl
            rw [hred]
            refine ⟨by simp, hheadNew, hlinkNew, ?_, ?_⟩
            · exact closedLoop_of_head (contour ++ [e]) first hheadNew
                (by rw [List.getLastD_concat]; exact hcl)
            · intro v
              show (inCount v rest : ℤ) = (outCount v rest : ℤ)
              have h0 := hrest v
              rw [hcl, sub_self] at h0
              omega
          · have hred : traceFrom first (n + 1) pt remaining contour
                = traceFrom first n (edgeEnd e) rest (contour ++ [e]) := by
              rw [traceFrom_succ, hx]
              exact if_neg hcl
            rw [hred]
            refine ih (edgeEnd e) rest (contour ++ [e]) ?_ (by simp) hheadNew hlinkNew ?_ hrest
            · have hlen := hperm.length_eq
              simp only [List.length_cons] at hlen
              omega
            · rw [List.getLastD_concat]

lemma findContourLoop_succ (n : ℕ) (e : Edge) (rest : List Edge) :
    findContourLoop (n + 1) (e :: rest)
      = (if 2 < (traceFrom e rest.length (edgeEnd e) rest [e]).1.length
          then [(traceFrom e rest.length (edgeEnd e) rest [e]).1] else [])
        ++ findContourLoop n (traceFrom e rest.length (edgeEnd e) rest [e]).2 := rfl

lemma findContourLoop_subperm :
    ∀ (fuel : ℕ) (edges : List Edge),
      (findContourLoop fuel edges).flatten.Subperm edges := by
  intro fuel
  induction fuel with
  | zero =>
      intro edges
      cases edges with
      | nil =>
          rw [show findContourLoop 0 ([] : List Edge) = [] from rfl, List.flatten_nil]
      | cons e rest =>
          rw [show findContourLoop 0 (e :: rest) = [] from rfl, List.flatten_nil]
          exact List.nil_subperm
  | succ n ih =>
      intro edges
      cases edges with
      | nil =>
          rw [show findContourLoop (n + 1) ([] : List Edge) = [] from rfl,
            List.flatten_nil]
      | cons e rest =>
          rw [findContourLoop_succ, List.flatten_append]
          have hperm := traceFrom_perm e rest.length (edgeEnd e) rest [e]
          by_cases hk : 2 < (traceFrom e rest.length (edgeEnd e) rest [e]).1.length
          · rw [if_pos hk]
            have h1 : ((traceFrom e rest.length (edgeEnd e) rest [e]).1
                ++ (findContourLoop n (traceFrom e rest.length (edgeEnd e) rest [e]).2).flatten).Subperm
                ((traceFrom e rest.length (edgeEnd e) rest [e]).1
                  ++ (traceFrom e rest.length (edgeEnd e) rest [e]).2) :=
              (List.subperm_append_left _).mpr
                (ih (traceFrom e rest.length (edgeEnd e) rest [e]).2)
            have h2 := h1.trans hperm.subperm
            simpa using h2
          · rw [if_neg hk]
            have h1 : ((findContourLoop n
                (traceFrom e rest.length (edgeEnd e) rest [e]).2).flatten).Subperm
                (traceFrom e rest.length (edgeEnd e) rest [e]).2 :=
              ih (traceFrom e rest.length (edgeEnd e) rest [e]).2
            have h2 : ((traceFrom e rest.length (edgeEnd e) rest [e]).2).Subperm
                ((traceFrom e rest.length (edgeEnd e) rest [e]).1
                  ++ (traceFrom e rest.length (edgeEnd e) rest [e]).2) :=
              (List.sublist_append_right _ _).subperm
            have h3 := (h1.trans h2).trans hperm.subperm
            simpa using h3

lemma findContourLoop_spec :
    ∀ (fuel : ℕ) (edges : List Edge),
      edges.length ≤ fuel →
      (∀ v : ℤ × ℤ, (inCount v edges : ℤ) = (outCount v edges : ℤ)) →
      ∀ c ∈ findContourLoop fuel edges,
        2 < c.length ∧ linkedChain c = true ∧ closedLoop c = true := by
  intro fuel
  induction fuel with
  | zero =>
      intro edges hlen hbal c hc
      cases edges with
      | nil =>
          rw [show findContourLoop 0 ([] : List Edge) = [] from rfl] at hc
          cases hc
      | cons e rest =>
          rw [show findContourLoop 0 (e :: rest) = [] from rfl] at hc
          cases hc
  | succ n ih =>
      intro edges hlen hbal c hc
      cases edges with
      | nil =>
          rw [show findContourLoop (n + 1) ([] : List Edge) = [] from rfl] at hc
          cases hc
      | cons e rest =>
          rw [findContourLoop_succ] at hc
          have hnet0 : ∀ v : ℤ × ℤ, (inCount v rest : ℤ) - (outCount v rest : ℤ)
              = chi (edgeStart e = v) - chi (edgeEnd e = v) := by
            intro v
            have h0 := hbal v
            rw [inCount_cons, outCount_cons] at h0
            linear_combination h0
          obtain ⟨hne1, hhead1, hlink1, hclosed1, hbal1⟩ :=
            traceFrom_spec e rest.length (edgeEnd e) rest [e]
              (le_refl _) (by simp) rfl rfl rfl hnet0
          rcases List.mem_append.mp hc with hc1 | hc2
          · split_ifs at hc1 with hk
            · rw [List.mem_singleton] at hc1
              subst hc1
              exact ⟨hk, hlink1, hclosed1⟩
            · cases hc1
          · have hp := traceFrom_perm e rest.length (edgeEnd e) rest [e]
            have hlen2 := hp.length_eq
            simp only [List.length_append, List.length_cons, List.length_nil] at hlen2
            have hT1 : 0 < (traceFrom e rest.length (edgeEnd e) rest [e]).1.length :=
              List.length_pos.mpr hne1
            simp only [List.length_cons] at hlen
            exact ih (traceFrom e rest.length (edgeEnd e) rest [e]).2
              (by omega) hbal1 c hc2

/-- C1: on a duplicate-free pixel set whose cells all lie inside the grid
bounds, every contour returned by findContour is well-formed: it has more
than 2 edges (shorter chains are dropped), consecutive edges meet
head-to-tail, and the last edge's endpoint equals the first edge's start
point. -/
theorem claim_C1 (gw gh : ℤ) (px : List (ℤ × ℤ)) (hnd : px.Nodup)
    (hbnd : ∀ q ∈ px, inGrid gw gh q) :
    ∀ c ∈ findContour gw gh px,
      2 < c.length ∧ linkedChain c = true ∧ closedLoop c = true := by
  intro c hc
  have hbal : ∀ v : ℤ × ℤ, (inCount v (genEdges gw gh px) : ℤ)
      = (outCount v (genEdges gw gh px) : ℤ) := by
    intro v
    obtain ⟨X, Y⟩ := v
    have h0 := genEdges_balanced gw gh px hnd (fun q hq => by
      have hg := hbnd q hq
      unfold inGrid at hg
      omega) X Y
    unfold netFlow at h0
    omega
  exact findContourLoop_spec (genEdges gw gh px).length (genEdges gw gh px)
    (le_refl _) hbal c hc

/-- C1 witness: the single contour of the 1-by-1 grid with its only cell
set is a closed 4-edge loop. -/
theorem claim_C1_witness :
    2 < (findContour 1 1 [(0, 0)]).headI.length
    ∧ linkedChain (findContour 1 1 [(0, 0)]).headI = true
    ∧ closedLoop (findContour 1 1 [(0, 0)]).headI = true :=
  claim_C1 1 1 [(0, 0)] (by decide) (by decide)
    (findContour 1 1 [(0, 0)]).headI (by decide)

lemma cellEdges_nodup (px : List (ℤ × ℤ)) (x y : ℤ) : (cellEdges px x y).Nodup := by
  unfold cellEdges
  split_ifs <;> simp

lemma cellOf_cellEdges (px : List (ℤ × ℤ)) (x y : ℤ) :
    ∀ e ∈ cellEdges px x y, cellOf e = (x, y) := by
  intro e he
  unfold cellEdges at he
  simp only [List.mem_append] at he
  rcases he with ((h | h) | h) | h
  · split_ifs at h
    · exact absurd h (List.not_mem_nil e)
    · rw [List.mem_singleton] at h
      subst h
      rfl
  · split_ifs at h
    · exact absurd h (List.not_mem_nil e)
    · rw [List.mem_singleton] at h
      subst h
      show ((x + 1 - 1, y) : ℤ × ℤ) = (x, y)
      simp
  · split_ifs at h
    · exact absurd h (List.not_mem_nil e)
    · rw [List.mem_singleton] at h
      subst h
      show ((x, y + 1 - 1) : ℤ × ℤ) = (x, y)
      simp
  · split_ifs at h
    · exact absurd h (List.not_mem_nil e)
    · rw [List.mem_singleton] at h
      subst h
      rfl

lemma genEdges_nodup (gw gh : ℤ) (px : List (ℤ × ℤ)) (hnd : px.Nodup) :
    (genEdges gw gh px).Nodup := by
  unfold genEdges
  rw [List.flatMap_def, List.nodup_flatten]
  constructor
  · intro l hl
    obtain ⟨q, hq, rfl⟩ := List.mem_map.mp hl
    split_ifs
    · exact List.nodup_nil
    · exact cellEdges_nodup px q.1 q.2
  · refine List.Pairwise.map _ ?_ hnd
    intro a b hab
    intro x hxa hxb
    have hxa2 : x ∈ cellEdges px a.1 a.2 := by
      by_cases hc : gw ≤ a.1 ∨ gh ≤ a.2 ∨ a.1 < 0 ∨ a.2 < 0
      · rw [if_pos hc] at hxa
        cases hxa
      · rw [if_neg hc] at hxa
        exact hxa
    have hxb2 : x ∈ cellEdges px b.1 b.2 := by
      by_cases hc : gw ≤ b.1 ∨ gh ≤ b.2 ∨ b.1 < 0 ∨ b.2 < 0
      · rw [if_pos hc] at hxb
        cases hxb
      · rw [if_neg hc] at hxb
        exact hxb
    have h1 := cellOf_cellEdges px a.1 a.2 x hxa2
    have h2 := cellOf_cellEdges px b.1 b.2 x hxb2
    apply hab
    have h3 : ((a.1, a.2) : ℤ × ℤ) = (b.1, b.2) := h1.symm.trans h2
    rw [Prod.mk.eta, Prod.mk.eta] at h3
    exact h3

/-- C10: on a duplicate-free pixel set, the edges of the contours returned
by one findContour call are pairwise distinct across the whole result
(no generated boundary edge is consumed twice), and together they form a
sub-multiset of the generated boundary edges. -/
theorem claim_C10 (gw gh : ℤ) (px : List (ℤ × ℤ)) (hnd : px.Nodup) :
    ((findContour gw gh px).flatten).Nodup
    ∧ ((findContour gw gh px).flatten).Subperm (genEdges gw gh px) := by
  have hsub : ((findContour gw gh px).flatten).Subperm (genEdges gw gh px) :=
    findContourLoop_subperm (genEdges gw gh px).length (genEdges gw gh px)
  refine ⟨?_, hsub⟩
  obtain ⟨l2, hp, hs⟩ := hsub
  exact hp.nodup_iff.mp (List.Nodup.sublist hs (genEdges_nodup gw gh px hnd))

/-- C10 witness: the 1-by-1 grid instance, where the four traced edges are
pairwise distinct and drawn from the generated pool. -/
theorem claim_C10_witness :
    ((findContour 1 1 [(0, 0)]).flatten).Nodup
    ∧ ((findContour 1 1 [(0, 0)]).flatten).Subperm (genEdges 1 1 [(0, 0)]) :=
  claim_C10 1 1 [(0, 0)] (by decide)

end PixelSmooth
